import Mathlib

/-!
# Playlist codec of bomi (`src/cmplayer/playlist.cpp`)

A shallow embedding of the playlist codec: format detection (`getType`), the
PLS and M3U encoders and decoders, the top-level `load` dispatch, the
directory loader and the `QSettings` adapter.

Modelling conventions.

* A `QString` is a list of characters; a `QTextStream` opened on a file is the
  decoded text that remains to be read.
* Stateful member functions take the playlist (and the store) as an argument
  and return the new one next to their C++ result.
* `int` counters are natural numbers: a `QList` never holds more than
  `INT_MAX` entries, so `i + 1` and `size()` do not overflow.
* What `QTextStream::readLine` does with a carriage return that ends the text,
  no line feed after it, is a property of the stream (it is cut at least on a
  device in text mode): the flag `cutFinalCR` says whether it is cut, and every
  statement holds for both values.
-/

namespace Bomi

/-- A `QString`, as the list of its characters. -/
abbrev QString := List Char

/-! ## Qt text primitives used by the codec -/

/-- The characters `QChar::isSpace` accepts: U+0009..U+000D, U+0020, U+0085,
U+00A0 and the Unicode separators (categories Zs, Zl, Zp). -/
def isSpace (c : Char) : Bool :=
  let n := c.toNat
  (9 ≤ n && n ≤ 13) || n == 0x20 || n == 0x85 || n == 0xA0 || n == 0x1680 ||
  (0x2000 ≤ n && n ≤ 0x200A) || n == 0x2028 || n == 0x2029 || n == 0x202F ||
  n == 0x205F || n == 0x3000

/-- The first code points of the runs of ten decimal digits of the Basic
Multilingual Plane (Unicode category Nd), from DIGIT ZERO to FULLWIDTH DIGIT
ZERO. -/
def digitRuns : List Nat :=
  [0x30, 0x660, 0x6F0, 0x7C0, 0x966, 0x9E6, 0xA66, 0xAE6, 0xB66, 0xBE6, 0xC66, 0xCE6, 0xD66,
    0xDE6, 0xE50, 0xED0, 0xF20, 0x1040, 0x1090, 0x17E0, 0x1810, 0x1946, 0x19D0, 0x1A80,
    0x1A90, 0x1B50, 0x1BB0, 0x1C40, 0x1C50, 0xA620, 0xA8D0, 0xA900, 0xA9D0, 0xA9F0, 0xAA50,
    0xABF0, 0xFF10]

/-- The function `QChar::isDigit`, which is the class `\d` of a `QRegExp`: the
decimal digits of Unicode (category Nd). A character outside the Basic
Multilingual Plane is a pair of surrogates in a `QString`, neither of them a
digit. -/
def QChar.isDigit (c : Char) : Bool :=
  digitRuns.any (fun b => b ≤ c.toNat && c.toNat < b + 10)

/-- The function `QString::trimmed`: whitespace removed from both ends. -/
def trimmed (s : QString) : QString :=
  (s.dropWhile isSpace).rdropWhile isSpace

/-- The function `QString::toLower`, on the letters `A`..`Z`. No character
outside `A`..`Z` has a lower-case form among the letters and digits of the
three suffixes `getType` compares with. -/
def toLower (s : QString) : QString :=
  s.map Char.toLower

/-- The function `QString::startsWith` for a single character. -/
def startsWith (s : QString) (c : Char) : Bool :=
  s.head? == some c

/-- The function `QFileInfo::suffix`: the characters after the last `.` of the
file name, the file name being what follows the last `/` of the path; empty
when the file name has no `.`. -/
def QFileInfo.suffix (filePath : QString) : QString :=
  let fileName := filePath.rtakeWhile (fun c => c != '/')
  if fileName.contains '.' then fileName.rtakeWhile (fun c => c != '.') else []

/-- The decimal text `QTextStream` writes for a non-negative `int`. -/
def decimal (n : Nat) : QString :=
  Nat.toDigits 10 n

/-! ## Data model -/

/-- Modelled from the spec: the media reference `Mrl`, whose class is declared
outside the given sources. It holds a locator string and a display name;
`Mrl(location, name)` stores both verbatim, `Mrl(location)` leaves the name
empty, `toString()` returns the locator and `isEmpty()` tests it. -/
structure Mrl where
  /-- The locator, as `toString()` returns it. -/
  loc : QString
  /-- The display name, as `name()` returns it. -/
  name : QString
deriving DecidableEq

/-- Modelled from the spec: the one-argument constructor `Mrl(location)`, which
stores the locator verbatim and leaves the display name empty. -/
def Mrl.ofLocation (location : QString) : Mrl :=
  ⟨location, []⟩

/-- Modelled from the spec: the member `Mrl::toString`, the locator string. -/
def Mrl.toString (m : Mrl) : QString :=
  m.loc

/-- Modelled from the spec: the member `Mrl::isEmpty`, true of a reference whose
locator is empty. -/
def Mrl.isEmpty (m : Mrl) : Bool :=
  m.loc.isEmpty

/-- The enumeration `Playlist::Type`. -/
inductive PlaylistType where
  | Unknown
  | PLS
  | M3U
  | M3U8
deriving DecidableEq

/-- The class `Playlist`, a `QList<Mrl>`. -/
abbrev Playlist := List Mrl

/-! ## Format detection -/

/-- The function `Playlist::getType`. -/
def Playlist.getType (fileName : QString) : PlaylistType :=
  let suffix := toLower (QFileInfo.suffix fileName)
  if suffix = "pls".toList then PlaylistType.PLS
  else if suffix = "m3u".toList then PlaylistType.M3U
  else if suffix = "m3u8".toList then PlaylistType.M3U8
  else PlaylistType.Unknown

/-! ## Reading lines from a text stream -/

/-- Characters that end a line of Unicode text: LF, VT, FF, CR, NEL, LS, PS. -/
def isLineBreak (c : Char) : Bool :=
  let n := c.toNat
  (10 ≤ n && n ≤ 13) || n == 0x85 || n == 0x2028 || n == 0x2029

/-- The scan of `QTextStream::readLine` for the next line feed: the text before
it and the text after it; the line feed itself is consumed. -/
def scanLine : QString → QString × QString
  | [] => ([], [])
  | c :: s => if c = '\n' then ([], s) else (c :: (scanLine s).1, (scanLine s).2)

/-- A line without the carriage return at its end, if it has one. -/
def chopCR (line : QString) : QString :=
  if line.getLast? = some '\r' then line.dropLast else line

/-- The function `QTextStream::readLine` on the text that remains to be read:
the line read and the text that remains after it. A carriage return right
before the line feed is not part of the line; one that ends the text, with no
line feed after it, is cut when `cutFinalCR` holds. -/
def readLine (cutFinalCR : Bool) (input : QString) : QString × QString :=
  if input.contains '\n' || cutFinalCR then (chopCR (scanLine input).1, (scanLine input).2)
  else ((scanLine input).1, (scanLine input).2)

/-! ## Pattern matching -/

/-- The pattern `^File\d+=(.+)$` of `loadPLS` matched against a line with
`QRegExp::indexIn`: the text of capture 1 when the line matches. The `.` of a
`QRegExp` matches every character; `\d` is `QChar::isDigit`. -/
def rxFile (line : QString) : Option QString :=
  match line with
  | 'F' :: 'i' :: 'l' :: 'e' :: s =>
    match s.dropWhile QChar.isDigit with
    | '=' :: rest =>
      if (s.takeWhile QChar.isDigit).isEmpty || rest.isEmpty then none else some rest
    | _ => none
  | _ => none

/-- The class `\s` of a `QRegularExpression` compiled without Unicode
properties: space, and U+0009..U+000D. -/
def reSpace (c : Char) : Bool :=
  let n := c.toNat
  n == 0x20 || (9 ≤ n && n ≤ 13)

/-- The end `\s*$` of the directive pattern: only `\s` characters remain (a
line feed at the very end, before which `$` also matches, is one of them). -/
def rxEnd (s : QString) : Bool :=
  s.all reSpace

/-- The tail `(?<name>.*)\s*$` of the directive pattern, matched greedily: the
longest run of characters other than the line feed, of length at most `k`,
after which `\s*$` matches. The `.` of a `QRegularExpression` matches every
character but the line feed. -/
def rxNameTail (s : QString) : Nat → Option QString
  | 0 => if rxEnd s then some [] else none
  | k + 1 =>
    if (s.take (k + 1)).all (fun c => c != '\n') && rxEnd (s.drop (k + 1))
    then some (s.take (k + 1)) else rxNameTail s k

/-- The alternative `(-|)` of the directive pattern: a minus sign is consumed
when there is one. -/
def rxOptMinus : QString → QString
  | '-' :: t => t
  | s => s

/-- The part `\s*(?<num>(-|)\d+)\s*\,\s*(?<name>.*)\s*$` of the directive
pattern, matched at the start of `s2`: the capture `name` on a match. -/
def rxExtInfNum (s2 : QString) : Option QString :=
  let s4 := rxOptMinus (s2.dropWhile reSpace)
  if (s4.takeWhile Char.isDigit).isEmpty then none
  else
    match (s4.dropWhile Char.isDigit).dropWhile reSpace with
    | ',' :: s5 => rxNameTail (s5.dropWhile reSpace) (s5.dropWhile reSpace).length
    | _ => none

/-- The pattern `#EXTINF\s*:\s*(?<num>(-|)\d+)\s*\,\s*(?<name>.*)\s*$` of
`loadM3U` matched at the start of `s`: the capture `name` on a match. The
pattern is compiled without Unicode properties, so `\d` is one of `0`..`9`. -/
def rxExtInfAt (s : QString) : Option QString :=
  match s with
  | '#' :: 'E' :: 'X' :: 'T' :: 'I' :: 'N' :: 'F' :: s1 =>
    match s1.dropWhile reSpace with
    | ':' :: s2 => rxExtInfNum s2
    | _ => none
  | _ => none

/-- The call `rxExtInf.match(line)`: the pattern is not anchored at the start,
so the first position of the line at which it matches is taken. The result is
the capture `name` when there is a match. -/
def rxExtInf : QString → Option QString
  | [] => rxExtInfAt []
  | c :: s =>
    match rxExtInfAt (c :: s) with
    | some name => some name
    | none => rxExtInf s

/-! ## PLS codec -/

/-- The text `savePLS` writes for entry `i` (0-based) with locator `loc`. -/
def plsEntry (i : Nat) (loc : QString) : QString :=
  "File".toList ++ decimal (i + 1) ++ '=' :: loc ++ '\n' ::
    "Length".toList ++ decimal (i + 1) ++ '=' :: "-1".toList ++ '\n' :: '\n' :: []

/-- The function `Playlist::savePLS`: the result and the text written to the
file. `endl` writes a line feed, the file not being open in text mode. -/
def Playlist.savePLS (self : Playlist) : Bool × QString :=
  let count := self.length
  let out := "[playlist]".toList ++ '\n' :: "NumberOfEntries=".toList ++ decimal count ++
    '\n' :: '\n' :: []
  let out := (List.range count).foldl
    (fun out i => out ++ plsEntry i (self.getD i (Mrl.ofLocation [])).toString) out
  (true, out ++ "Version=2".toList ++ '\n' :: [])

/-- The loop of `loadPLS`, for at most `fuel` lines. -/
def Playlist.loadPLSLoop (cutFinalCR : Bool) : Nat → QString → Playlist → Playlist
  | 0, _, self => self
  | fuel + 1, input, self =>
    if input.isEmpty then self
    else
      let line := (readLine cutFinalCR input).1
      let rest := (readLine cutFinalCR input).2
      if line.isEmpty then loadPLSLoop cutFinalCR fuel rest self
      else
        match rxFile line with
        | some cap1 => loadPLSLoop cutFinalCR fuel rest (self ++ [Mrl.ofLocation cap1])
        | none => loadPLSLoop cutFinalCR fuel rest self

/-- The function `Playlist::loadPLS` on the decoded text of the file, read from
position 0: the result and the playlist after it. Every `readLine` on a text
that is not at its end consumes a character, so the loop ends within
`input.length` rounds. -/
def Playlist.loadPLS (cutFinalCR : Bool) (self : Playlist) (input : QString) :
    Bool × Playlist :=
  (true, Playlist.loadPLSLoop cutFinalCR input.length input self)

/-! ## M3U codec -/

/-- The function `Playlist::saveM3U`: the result and the text written. -/
def Playlist.saveM3U (self : Playlist) : Bool × QString :=
  let count := self.length
  let out := "#EXTM3U".toList ++ '\n' :: []
  let out := (List.range count).foldl
    (fun out i => out ++ "#EXTINF:".toList ++ decimal 0 ++ ',' :: '\n' ::
      (self.getD i (Mrl.ofLocation [])).toString ++ '\n' :: []) out
  (true, out)

/-- The lambda `getNextLocation` of `loadM3U`, for at most `fuel` lines: the
line returned (empty at the end of the text) and the text left in the stream. -/
def getNextLocation (cutFinalCR : Bool) : Nat → QString → QString × QString
  | 0, input => ([], input)
  | fuel + 1, input =>
    if input.isEmpty then ([], input)
    else
      let line := trimmed (readLine cutFinalCR input).1
      let rest := (readLine cutFinalCR input).2
      if !line.isEmpty && !startsWith line '#' then (line, rest)
      else getNextLocation cutFinalCR fuel rest

/-- The loop of `loadM3U`, for at most `fuel` lines. -/
def Playlist.loadM3ULoop (cutFinalCR : Bool) : Nat → QString → Playlist → Playlist
  | 0, _, self => self
  | fuel + 1, input, self =>
    if input.isEmpty then self
    else
      let line := trimmed (readLine cutFinalCR input).1
      let rest := (readLine cutFinalCR input).2
      if line.isEmpty then loadM3ULoop cutFinalCR fuel rest self
      else
        let r : QString × QString × QString :=
          if startsWith line '#' then
            match rxExtInf line with
            | some name => (name, getNextLocation cutFinalCR rest.length rest)
            | none => ([], [], rest)
          else ([], getNextLocation cutFinalCR rest.length rest)
        if !r.2.1.isEmpty then
          loadM3ULoop cutFinalCR fuel r.2.2 (self ++ [Mrl.mk r.2.1 r.1])
        else loadM3ULoop cutFinalCR fuel r.2.2 self

/-- The function `Playlist::loadM3U` on the decoded text of the file, read from
position 0: the result and the playlist after it. -/
def Playlist.loadM3U (cutFinalCR : Bool) (self : Playlist) (input : QString) :
    Bool × Playlist :=
  (true, Playlist.loadM3ULoop cutFinalCR input.length input self)

/-! ## Loading from files, directories and settings -/

/-- The member `QList::clear`. -/
def Playlist.clear (_self : Playlist) : Playlist :=
  []

/-- A `QFile` as `load` sees it: its name, whether it is open, whether
`open(QFile::ReadOnly)` succeeds, the text a `QTextStream` on it delivers from
position 0 under the codec named `enc` (the default codec for an empty `enc`),
and whether that stream cuts a carriage return that ends the text. -/
structure QFile where
  /-- The result of `fileName()`. -/
  fileName : QString
  /-- The result of `isOpen()`. -/
  isOpen : Bool
  /-- The result of `open(QFile::ReadOnly)`. -/
  canOpen : Bool
  /-- The decoded text, by codec name. -/
  text : QString → QString
  /-- Whether `readLine` cuts a carriage return that ends the text. -/
  cutFinalCR : Bool

/-- The function `Playlist::load(QFile *, const QString &, Type)`. -/
def Playlist.loadFile (self : Playlist) (file : QFile) (enc : QString) (type : PlaylistType) :
    Bool × Playlist :=
  let self := Playlist.clear self
  if !file.isOpen && !file.canOpen then (false, self)
  else
    let type := if type = PlaylistType.Unknown then Playlist.getType file.fileName else type
    match type with
    | PlaylistType.PLS => Playlist.loadPLS file.cutFinalCR self (file.text enc)
    | PlaylistType.M3U => Playlist.loadM3U file.cutFinalCR self (file.text enc)
    | PlaylistType.M3U8 => Playlist.loadM3U file.cutFinalCR self (file.text "UTF-8".toList)
    | PlaylistType.Unknown => (false, self)

/-- A file of the host that can be opened for reading: its text by codec name,
and whether a stream on it cuts a carriage return that ends the text. -/
structure FileData where
  /-- The decoded text, by codec name. -/
  text : QString → QString
  /-- Whether `readLine` cuts a carriage return that ends the text. -/
  cutFinalCR : Bool

/-- The files of the host: the data of every path that can be opened for
reading. -/
abbrev FileSystem := QString → Option FileData

/-- The object `QFile file(filePath)`: not open yet. -/
def QFile.ofPath (fs : FileSystem) (filePath : QString) : QFile where
  fileName := filePath
  isOpen := false
  canOpen := (fs filePath).isSome
  text := fun enc =>
    match fs filePath with
    | some d => d.text enc
    | none => []
  cutFinalCR :=
    match fs filePath with
    | some d => d.cutFinalCR
    | none => false

/-- The function `Playlist::load(const QString &, const QString &, Type)`. -/
def Playlist.loadPath (self : Playlist) (fs : FileSystem) (filePath enc : QString)
    (type : PlaylistType) : Bool × Playlist :=
  Playlist.loadFile self (QFile.ofPath fs filePath) enc type

/-- The function `Playlist::load(const Mrl &, const QString &, Type)`. The
members `Mrl::isLocalFile` and `Mrl::toLocalFile`, declared outside the given
sources, are parameters. -/
def Playlist.loadMrl (isLocalFile : Mrl → Bool) (toLocalFile : Mrl → QString)
    (self : Playlist) (fs : FileSystem) (mrl : Mrl) (enc : QString) (type : PlaylistType) :
    Bool × Playlist :=
  if isLocalFile mrl then Playlist.loadPath self fs (toLocalFile mrl) enc type
  else (false, self)

/-- A `QDir` as `loadAll` sees it: `entryList(filter, QDir::Files, QDir::Name)`
by filter, and `absoluteFilePath`. -/
structure QDir where
  /-- The sorted names of the files matching a name filter. -/
  entryList : List QString → List QString
  /-- The absolute path of a file of the directory. -/
  absoluteFilePath : QString → QString

/-- The function `Playlist::loadAll`. The list `Info::mediaNameFilter()`,
declared outside the given sources, is a parameter. -/
def Playlist.loadAll (mediaNameFilter : List QString) (self : Playlist) (dir : QDir) :
    Playlist :=
  let self := Playlist.clear self
  let files := dir.entryList mediaNameFilter
  (List.range files.length).foldl
    (fun self i => self ++ [Mrl.ofLocation (dir.absoluteFilePath (files.getD i []))]) self

/-- A `QSettings` store as the playlist uses it, one indexed array per section
name: for every array name the size `beginReadArray` returns, and for every
array name, index and field the string `value(field).toString()` returns
(empty for an absent field). -/
structure QSettings where
  /-- The size read for an array. -/
  arraySize : QString → Int
  /-- The string read for a field of an element of an array. -/
  value : QString → Nat → QString → QString

/-- The call `beginWriteArray(name, size)` with a size that is not negative. -/
def QSettings.beginWriteArray (set : QSettings) (name : QString) (size : Nat) : QSettings where
  arraySize := fun a => if a = name then (size : Int) else set.arraySize a
  value := set.value

/-- The call `setValue(field, v)` after `setArrayIndex(i)` in array `name`. -/
def QSettings.setValue (set : QSettings) (name : QString) (i : Nat) (field v : QString) :
    QSettings where
  arraySize := set.arraySize
  value := fun a j f => if a = name ∧ j = i ∧ f = field then v else set.value a j f

/-- The function `Playlist::save(const QString &, QSettings *)`: the store
after it. -/
def Playlist.saveSettings (self : Playlist) (name : QString) (set : QSettings) : QSettings :=
  (List.range self.length).foldl
    (fun set i =>
      (set.setValue name i "mrl".toList (self.getD i (Mrl.ofLocation [])).toString).setValue
        name i "name".toList (self.getD i (Mrl.ofLocation [])).name)
    (set.beginWriteArray name self.length)

/-- The function `Playlist::load(const QString &, QSettings *)`: the playlist
after it. -/
def Playlist.loadSettings (self : Playlist) (name : QString) (set : QSettings) : Playlist :=
  let self := Playlist.clear self
  let size := set.arraySize name
  (List.range size.toNat).foldl
    (fun self i =>
      let mrl := Mrl.mk (set.value name i "mrl".toList) (set.value name i "name".toList)
      if !mrl.isEmpty then self ++ [mrl] else self)
    self

/-! ## Vocabulary of the statements -/

/-- The lines `readLine` delivers from a text, one call after the other until
`atEnd`, before the carriage return at their end is cut: the text split at its
line feeds, without the empty piece after a final line feed. -/
def rawLines : QString → List QString
  | [] => []
  | c :: s =>
    if c = '\n' then [] :: rawLines s
    else
      match rawLines s with
      | [] => [[c]]
      | l :: ls => (c :: l) :: ls

/-- The given lines without the carriage return at their end; the last line
keeps its own unless `chopLast` holds. -/
def chopLines (chopLast : Bool) : List QString → List QString
  | [] => []
  | [l] => [if chopLast then chopCR l else l]
  | l :: l2 :: ls => chopCR l :: chopLines chopLast (l2 :: ls)

/-- The lines of a text, in the order of the text, as `readLine` delivers
them: the last line loses a carriage return at its end when a line feed
follows it or `cutFinalCR` holds. -/
def textLines (cutFinalCR : Bool) (input : QString) : List QString :=
  chopLines (cutFinalCR || input.getLast? == some '\n') (rawLines input)

/-- The text made of the given lines, each one ended by a line feed. -/
def unlines : List QString → QString
  | [] => []
  | l :: ls => l ++ '\n' :: unlines ls

/-- A line of the shape `File<one or more digits>=<non-empty rest>`, the
digits being the decimal digits of `QChar::isDigit`. -/
def IsFileLine (line rest : QString) : Prop :=
  ∃ digits : QString, digits ≠ [] ∧ (∀ d ∈ digits, QChar.isDigit d = true) ∧ rest ≠ [] ∧
    line = "File".toList ++ digits ++ '=' :: rest

/-- The lines of the PLS grammar for the locators `locs`, numbered from `i`. -/
def plsEntryLines : Nat → List QString → List QString
  | _, [] => []
  | i, loc :: locs =>
    ("File".toList ++ decimal i ++ '=' :: loc) ::
      ("Length".toList ++ decimal i ++ "=-1".toList) :: [] :: plsEntryLines (i + 1) locs

/-- The texts `g i m` of the entries `m` of a playlist, `i` counting from
`start`, one after the other. -/
def concatIdx (g : Nat → Mrl → QString) : Nat → Playlist → QString
  | _, [] => []
  | i, m :: ms => g i m ++ concatIdx g (i + 1) ms

/-- A plain locator line: not empty after trimming, and not a `#` line. -/
def isPlain (line : QString) : Bool :=
  !(trimmed line).isEmpty && !startsWith (trimmed line) '#'

/-- The lookahead `getNextLocation` on the lines that remain: the first plain
line, trimmed, and the lines after it; the empty string when no plain line
remains. -/
def nextPlain : List QString → QString × List QString
  | [] => ([], [])
  | l :: ls => if isPlain l then (trimmed l, ls) else nextPlain ls

/-- The M3U decoder as a pass over the lines of the text. The state is the
display name of the entry whose locator is being looked for, if any: `none` in
the main scan, `some name` inside the lookahead. -/
def m3uRun : Option QString → List QString → Playlist
  | _, [] => []
  | some name, l :: ls =>
    if isPlain l then Mrl.mk (trimmed l) name :: m3uRun none ls else m3uRun (some name) ls
  | none, l :: ls =>
    if (trimmed l).isEmpty then m3uRun none ls
    else if startsWith (trimmed l) '#' then
      match rxExtInf (trimmed l) with
      | some name => m3uRun (some name) ls
      | none => m3uRun none ls
    else m3uRun (some []) ls

/-- The text made of the given lines with a line feed between one line and
the next, and none after the last. -/
def joinLines : List QString → QString
  | [] => []
  | [l] => l
  | l :: l2 :: ls => l ++ '\n' :: joinLines (l2 :: ls)

/-- The lines `saveM3U` writes after the header for the locators `locs`. -/
def m3uEntryLines : List QString → List QString
  | [] => []
  | loc :: locs => "#EXTINF:0,".toList :: loc :: m3uEntryLines locs

/-! ## Format detection: proofs -/

theorem rtakeWhile_append_all {p : Char → Bool} (a b : QString) (hb : ∀ x ∈ b, p x = true) :
    (a ++ b).rtakeWhile p = a.rtakeWhile p ++ b := by
  unfold List.rtakeWhile
  rw [List.reverse_append, List.takeWhile_append_of_pos (by simpa using hb)]
  simp

theorem rtakeWhile_append_cons_neg {p : Char → Bool} (a b : QString) (c : Char)
    (hc : ¬ p c = true) (hb : ∀ x ∈ b, p x = true) : (a ++ c :: b).rtakeWhile p = b := by
  have h : a ++ c :: b = (a ++ [c]) ++ b := by simp
  rw [h, rtakeWhile_append_all _ _ hb, List.rtakeWhile_concat_neg _ _ _ hc]
  simp

theorem rtakeWhile_ne_decomp (ch : Char) (l : QString) (h : ch ∈ l) :
    ∃ pre, l = pre ++ ch :: l.rtakeWhile (fun c => c != ch) := by
  induction l using List.reverseRecOn with
  | nil => simp at h
  | append_singleton init x ih =>
    by_cases hx : x = ch
    · subst hx
      refine ⟨init, ?_⟩
      rw [List.rtakeWhile_concat_neg _ _ _ (by simp)]
    · have hmem : ch ∈ init := by
        rcases List.mem_append.1 h with h1 | h1
        · exact h1
        · simp at h1; exact absurd h1.symm hx
      obtain ⟨pre, hpre⟩ := ih hmem
      refine ⟨pre, ?_⟩
      rw [List.rtakeWhile_concat_pos _ _ _ (by simpa using hx)]
      conv_lhs => rw [hpre]
      simp

theorem not_mem_rtakeWhile_ne (ch : Char) (l : QString) :
    ch ∉ l.rtakeWhile (fun c => c != ch) := by
  intro h
  have := List.mem_rtakeWhile_imp h
  simp at this

theorem toLower_slash_mem (suf : QString) (h : '/' ∈ suf) : '/' ∈ toLower suf := by
  unfold toLower
  exact List.mem_map.2 ⟨'/', h, by decide⟩

theorem toLower_suffix_eq_iff (f t : QString) (ht : t ≠ []) (hslash : '/' ∉ t) :
    toLower (QFileInfo.suffix f) = t ↔
      ∃ pre suf, f = pre ++ '.' :: suf ∧ '.' ∉ suf ∧ toLower suf = t := by
  constructor
  · intro h
    unfold QFileInfo.suffix at h
    simp only at h
    split at h
    · rename_i hdot
      obtain ⟨pre1, hpre1⟩ := rtakeWhile_ne_decomp '.' _ (by simpa using hdot)
      obtain ⟨pre0, hpre0⟩ := List.rtakeWhile_suffix (fun c => c != '/') f
      refine ⟨pre0 ++ pre1, _, ?_, not_mem_rtakeWhile_ne '.' _, h⟩
      rw [List.append_assoc, ← hpre1, hpre0]
    · exact absurd h.symm ht
  · rintro ⟨pre, suf, rfl, hdot, hlow⟩
    have hsl : '/' ∉ suf := fun h => hslash (hlow ▸ toLower_slash_mem suf h)
    have hall : ∀ x ∈ '.' :: suf, (fun c => c != '/') x = true := by
      intro x hx
      rcases List.mem_cons.1 hx with rfl | hx
      · decide
      · simp only [bne_iff_ne, ne_eq]
        rintro rfl
        exact hsl hx
    have hname : (pre ++ '.' :: suf).rtakeWhile (fun c => c != '/') =
        pre.rtakeWhile (fun c => c != '/') ++ '.' :: suf := rtakeWhile_append_all _ _ hall
    have hsuf : ∀ x ∈ suf, (fun c => c != '.') x = true := by
      intro x hx
      simp only [bne_iff_ne, ne_eq]
      rintro rfl
      exact hdot hx
    unfold QFileInfo.suffix
    simp only [hname]
    rw [if_pos (by simp), rtakeWhile_append_cons_neg _ _ _ (by simp) hsuf]
    exact hlow

theorem rtakeWhile_map_toLower (ch : Char) (hch : ∀ c : Char, c.toLower = ch ↔ c = ch)
    (l : QString) :
    (l.map Char.toLower).rtakeWhile (fun c => c != ch) =
      (l.rtakeWhile (fun c => c != ch)).map Char.toLower := by
  have hf : ((fun c => c != ch) ∘ Char.toLower) = (fun c => c != ch) := by
    funext c
    by_cases h : c = ch
    · simp [h, (hch ch).2 rfl]
    · have h1 : c.toLower ≠ ch := mt (hch c).1 h
      have e1 : (c.toLower != ch) = true := by simpa using h1
      have e2 : (c != ch) = true := by simpa using h
      simp only [Function.comp, e1, e2]
  unfold List.rtakeWhile
  rw [← List.map_reverse, List.takeWhile_map, List.map_reverse, hf]

theorem toNat_ofNat_valid (n : Nat) (hv : n.isValidChar) : (Char.ofNat n).toNat = n := by
  rw [Char.ofNat, dif_pos hv]
  rfl

theorem toLower_eq_iff_of_not_letter (ch : Char) (h : ¬ (97 ≤ ch.toNat ∧ ch.toNat ≤ 122))
    (h2 : ¬ (65 ≤ ch.toNat ∧ ch.toNat ≤ 90)) (c : Char) : c.toLower = ch ↔ c = ch := by
  unfold Char.toLower
  simp only [ge_iff_le]
  split
  · rename_i hc
    constructor
    · intro e
      exfalso
      apply h
      rw [← e]
      have hv : (c.toNat + 32).isValidChar := by
        left; omega
      rw [toNat_ofNat_valid _ hv]
      omega
    · rintro rfl
      exact absurd hc h2
  · rfl

theorem toLower_suffix_comm (f : QString) :
    toLower (QFileInfo.suffix f) = QFileInfo.suffix (toLower f) := by
  have hs := toLower_eq_iff_of_not_letter '/' (by decide) (by decide)
  have hd := toLower_eq_iff_of_not_letter '.' (by decide) (by decide)
  have hc : ∀ l : QString, (l.map Char.toLower).contains '.' = l.contains '.' := by
    intro l
    rw [Bool.eq_iff_iff]
    simp only [List.contains_iff_exists_mem_beq, beq_iff_eq, List.mem_map]
    constructor
    · rintro ⟨a, ⟨b, hb, rfl⟩, hab⟩
      exact ⟨b, hb, ((hd b).1 hab.symm).symm⟩
    · rintro ⟨a, ha, rfl⟩
      exact ⟨_, ⟨_, ha, rfl⟩, ((hd _).2 rfl).symm⟩
  unfold QFileInfo.suffix toLower
  simp only [rtakeWhile_map_toLower '/' hs, rtakeWhile_map_toLower '.' hd, hc]
  split <;> rfl

theorem getType_cases (f : QString) :
    (Playlist.getType f = PlaylistType.PLS ↔ toLower (QFileInfo.suffix f) = "pls".toList) ∧
    (Playlist.getType f = PlaylistType.M3U ↔ toLower (QFileInfo.suffix f) = "m3u".toList) ∧
    (Playlist.getType f = PlaylistType.M3U8 ↔ toLower (QFileInfo.suffix f) = "m3u8".toList) ∧
    (Playlist.getType f = PlaylistType.Unknown ↔
      ¬ (toLower (QFileInfo.suffix f) = "pls".toList ∨
        toLower (QFileInfo.suffix f) = "m3u".toList ∨
        toLower (QFileInfo.suffix f) = "m3u8".toList)) := by
  have d12 : "pls".toList ≠ "m3u".toList := by decide
  have d13 : "pls".toList ≠ "m3u8".toList := by decide
  have d23 : "m3u".toList ≠ "m3u8".toList := by decide
  unfold Playlist.getType
  simp only
  generalize toLower (QFileInfo.suffix f) = s
  split_ifs with a b c
  · subst a; simp [d12, d13]
  · subst b; simp [d23, d12.symm]
  · subst c; simp [d13.symm, d23.symm]
  · simp only [String.toList] at a b c
    simp [a, b, c]

/-- C3. `getType` is total and decides by the lower-cased text after the last
`.` of the file name: PLS exactly for `pls`, M3U exactly for `m3u`, M3U8 exactly
for `m3u8`, Unknown in every other case (a name without `.` included); two
names that differ only in letter case get the same result, `A.PLS` is PLS and
`x.mp3` is Unknown. -/
theorem getType_spec :
    (∀ f : QString, Playlist.getType f = PlaylistType.PLS ↔
      ∃ pre suf, f = pre ++ '.' :: suf ∧ '.' ∉ suf ∧ toLower suf = "pls".toList) ∧
    (∀ f : QString, Playlist.getType f = PlaylistType.M3U ↔
      ∃ pre suf, f = pre ++ '.' :: suf ∧ '.' ∉ suf ∧ toLower suf = "m3u".toList) ∧
    (∀ f : QString, Playlist.getType f = PlaylistType.M3U8 ↔
      ∃ pre suf, f = pre ++ '.' :: suf ∧ '.' ∉ suf ∧ toLower suf = "m3u8".toList) ∧
    (∀ f : QString, Playlist.getType f = PlaylistType.Unknown ↔
      ¬ ∃ pre suf, f = pre ++ '.' :: suf ∧ '.' ∉ suf ∧
        (toLower suf = "pls".toList ∨ toLower suf = "m3u".toList ∨
          toLower suf = "m3u8".toList)) ∧
    (∀ f g : QString, toLower f = toLower g → Playlist.getType f = Playlist.getType g) ∧
    Playlist.getType "A.PLS".toList = PlaylistType.PLS ∧
    Playlist.getType "x.mp3".toList = PlaylistType.Unknown := by
  have h1 := fun f => toLower_suffix_eq_iff f "pls".toList (by decide) (by decide)
  have h2 := fun f => toLower_suffix_eq_iff f "m3u".toList (by decide) (by decide)
  have h3 := fun f => toLower_suffix_eq_iff f "m3u8".toList (by decide) (by decide)
  refine ⟨?_, ?_, ?_, ?_, ?_, by decide, by decide⟩
  · intro f
    rw [← h1 f]
    exact (getType_cases f).1
  · intro f
    rw [← h2 f]
    exact (getType_cases f).2.1
  · intro f
    rw [← h3 f]
    exact (getType_cases f).2.2.1
  · intro f
    have e : (∃ pre suf, f = pre ++ '.' :: suf ∧ '.' ∉ suf ∧
        (toLower suf = "pls".toList ∨ toLower suf = "m3u".toList ∨
          toLower suf = "m3u8".toList)) ↔
        (toLower (QFileInfo.suffix f) = "pls".toList ∨
          toLower (QFileInfo.suffix f) = "m3u".toList ∨
          toLower (QFileInfo.suffix f) = "m3u8".toList) := by
      rw [h1 f, h2 f, h3 f]
      constructor
      · rintro ⟨pre, suf, hf, hd, h | h | h⟩
        · exact Or.inl ⟨pre, suf, hf, hd, h⟩
        · exact Or.inr (Or.inl ⟨pre, suf, hf, hd, h⟩)
        · exact Or.inr (Or.inr ⟨pre, suf, hf, hd, h⟩)
      · rintro (⟨pre, suf, hf, hd, h⟩ | ⟨pre, suf, hf, hd, h⟩ | ⟨pre, suf, hf, hd, h⟩)
        · exact ⟨pre, suf, hf, hd, Or.inl h⟩
        · exact ⟨pre, suf, hf, hd, Or.inr (Or.inl h)⟩
        · exact ⟨pre, suf, hf, hd, Or.inr (Or.inr h)⟩
    rw [e]
    exact (getType_cases f).2.2.2
  · intro f g hfg
    unfold Playlist.getType
    simp only [toLower_suffix_comm, hfg]

/-! ## Lines of a text: proofs -/

theorem scanLine_length (s : QString) : (scanLine s).2.length ≤ s.length := by
  induction s with
  | nil => simp [scanLine]
  | cons c s ih =>
    unfold scanLine
    split
    · simp
    · simp only [List.length_cons]
      omega

theorem scanLine_length_lt (s : QString) (h : s ≠ []) : (scanLine s).2.length < s.length := by
  cases s with
  | nil => exact absurd rfl h
  | cons c s =>
    unfold scanLine
    split
    · simp
    · have := scanLine_length s
      simp only [List.length_cons]
      omega

theorem scanLine_of_not_mem (input : QString) (h : '\n' ∉ input) :
    scanLine input = (input, []) := by
  induction input with
  | nil => rfl
  | cons c s ih =>
    have hc : c ≠ '\n' := fun e => h (by simp [e])
    have hs : '\n' ∉ s := fun e => h (by simp [e])
    simp [scanLine, hc, ih hs]

theorem scanLine_of_mem (input : QString) (h : '\n' ∈ input) :
    input = (scanLine input).1 ++ '\n' :: (scanLine input).2 := by
  induction input with
  | nil => simp at h
  | cons c s ih =>
    by_cases hc : c = '\n'
    · simp [scanLine, hc]
    · have hs : '\n' ∈ s := by
        rcases List.mem_cons.1 h with e | e
        · exact absurd e.symm hc
        · exact e
      have := ih hs
      simp only [scanLine, hc, if_false, List.cons_append]
      rw [← this]

theorem readLine_snd (cut : Bool) (input : QString) :
    (readLine cut input).2 = (scanLine input).2 := by
  unfold readLine
  split <;> rfl

theorem rawLines_eq (input : QString) (h : input ≠ []) :
    rawLines input = (scanLine input).1 :: rawLines (scanLine input).2 := by
  induction input with
  | nil => exact absurd rfl h
  | cons c s ih =>
    by_cases hc : c = '\n'
    · simp [rawLines, scanLine, hc]
    · cases s with
      | nil => simp [rawLines, scanLine, hc]
      | cons d t =>
        have := ih (by simp)
        rw [rawLines, if_neg hc, this]
        simp [scanLine, hc]

theorem getLast?_ne_of_not_mem (c : Char) (l : QString) (h : c ∉ l) : l.getLast? ≠ some c :=
  fun e => h (List.mem_of_mem_getLast? (Option.mem_def.2 e))

theorem textLines_nil (cut : Bool) : textLines cut [] = [] := rfl

theorem textLines_eq (cut : Bool) (input : QString) (h : input ≠ []) :
    textLines cut input = (readLine cut input).1 :: textLines cut (readLine cut input).2 := by
  by_cases hmem : '\n' ∈ input
  · have hdec := scanLine_of_mem input hmem
    have hc : input.contains '\n' = true := by simpa using hmem
    have hrl : readLine cut input = (chopCR (scanLine input).1, (scanLine input).2) := by
      simp only [readLine, hc, Bool.true_or, if_true]
    rw [hrl]
    unfold textLines
    rw [rawLines_eq input h]
    by_cases hr : (scanLine input).2 = []
    · have hlast : input.getLast? = some '\n' := by
        rw [hdec, hr]
        simp
      simp [hr, rawLines, chopLines, hlast]
    · have hlast : input.getLast? = (scanLine input).2.getLast? := by
        conv_lhs => rw [hdec]
        rw [List.getLast?_append, List.getLast?_cons]
        cases hq : (scanLine input).2.getLast? with
        | none => exact absurd (List.getLast?_eq_none_iff.1 hq) hr
        | some x => simp
      rw [rawLines_eq _ hr, chopLines, hlast]
  · have hsc := scanLine_of_not_mem input hmem
    have hc : input.contains '\n' = false := by simpa using hmem
    have hlast : (input.getLast? == some '\n') = false := by
      simpa using getLast?_ne_of_not_mem '\n' input hmem
    unfold textLines
    rw [rawLines_eq input h, hsc]
    cases cut <;> simp [readLine, hmem, hsc, rawLines, chopLines, hlast]

theorem rawLines_append_lf (l r : QString) (h : '\n' ∉ l) :
    rawLines (l ++ '\n' :: r) = l :: rawLines r := by
  induction l with
  | nil => simp [rawLines]
  | cons c l ih =>
    have hc : c ≠ '\n' := fun e => h (by simp [e])
    have hl : '\n' ∉ l := fun e => h (by simp [e])
    simp [rawLines, hc, ih hl]

theorem rawLines_unlines (ls : List QString) (h : ∀ l ∈ ls, '\n' ∉ l) :
    rawLines (unlines ls) = ls := by
  induction ls with
  | nil => rfl
  | cons l ls ih =>
    rw [unlines, rawLines_append_lf l _ (h l (by simp)), ih (fun x hx => h x (by simp [hx]))]

theorem unlines_append (a b : List QString) : unlines (a ++ b) = unlines a ++ unlines b := by
  induction a with
  | nil => rfl
  | cons l a ih => simp [unlines, ih]

theorem chopCR_of_getLast (l : QString) (h : l.getLast? ≠ some '\r') : chopCR l = l := by
  unfold chopCR
  rw [if_neg h]

theorem chopLines_id (b : Bool) : ∀ ls : List QString, (∀ l ∈ ls, l.getLast? ≠ some '\r') →
    chopLines b ls = ls
  | [], _ => rfl
  | [l], h => by
    simp only [chopLines, chopCR_of_getLast l (h l (by simp))]
    simp
  | l :: l2 :: ls, h => by
    rw [chopLines, chopCR_of_getLast l (h l (by simp)),
      chopLines_id b (l2 :: ls) (fun x hx => h x (List.mem_cons_of_mem _ hx))]

/-! ## PLS decoding: proofs -/

theorem rxFile_nil : rxFile [] = none := rfl

theorem loadPLSLoop_nil (cut : Bool) (fuel : Nat) (self : Playlist) :
    Playlist.loadPLSLoop cut fuel [] self = self := by
  cases fuel <;> simp [Playlist.loadPLSLoop]

theorem loadPLSLoop_eq (cut : Bool) (fuel : Nat) (input : QString) (self : Playlist)
    (h : input.length ≤ fuel) :
    Playlist.loadPLSLoop cut fuel input self =
      self ++ (textLines cut input).filterMap (fun l => (rxFile l).map Mrl.ofLocation) := by
  induction fuel generalizing input self with
  | zero =>
    have : input = [] := List.length_eq_zero.1 (Nat.le_zero.1 h)
    subst this
    simp [Playlist.loadPLSLoop, textLines_nil]
  | succ fuel ih =>
    by_cases hin : input = []
    · subst hin
      simp [Playlist.loadPLSLoop, textLines_nil]
    · have hlt := scanLine_length_lt input hin
      have hrest : (readLine cut input).2.length ≤ fuel := by
        rw [readLine_snd]
        omega
      rw [textLines_eq cut input hin, Playlist.loadPLSLoop]
      have hne : input.isEmpty = false := by
        cases input with
        | nil => exact absurd rfl hin
        | cons _ _ => rfl
      simp only [hne, Bool.false_eq_true, if_false]
      by_cases hl : (readLine cut input).1 = []
      · simp [hl, rxFile_nil, ih _ _ hrest]
      · have hle : (readLine cut input).1.isEmpty = false := by
          cases hq : (readLine cut input).1 with
          | nil => exact absurd hq hl
          | cons _ _ => rfl
        simp only [hle, Bool.false_eq_true, if_false]
        cases hr : rxFile (readLine cut input).1 with
        | none => simp [hr, ih _ _ hrest]
        | some cap1 => simp [hr, ih _ _ hrest]

theorem span_class (p : Char → Bool) (digits rest : QString) (c : Char)
    (hd : ∀ d ∈ digits, p d = true) (hc : p c = false) :
    (digits ++ c :: rest).takeWhile p = digits ∧
      (digits ++ c :: rest).dropWhile p = c :: rest := by
  constructor
  · rw [List.takeWhile_append_of_pos hd]
    simp [List.takeWhile, hc]
  · rw [List.dropWhile_append_of_pos hd]
    simp [List.dropWhile, hc]

theorem isDigit_of_ascii (c : Char) (h : c.isDigit = true) : QChar.isDigit c = true := by
  simp only [Char.isDigit, ge_iff_le, Bool.and_eq_true, decide_eq_true_eq] at h
  have h1 : (48 : Nat) ≤ c.toNat := h.1
  have h2 : c.toNat ≤ 57 := h.2
  have e : (0x30 ≤ c.toNat && c.toNat < 0x30 + 10) = true := by
    simp only [Bool.and_eq_true, decide_eq_true_eq]
    omega
  unfold QChar.isDigit digitRuns
  rw [List.any_cons, e]
  rfl

theorem rxFile_of_shape (digits rest : QString) (hn : digits ≠ []) (hr : rest ≠ [])
    (hd : ∀ d ∈ digits, QChar.isDigit d = true) :
    rxFile ("File".toList ++ digits ++ '=' :: rest) = some rest := by
  obtain ⟨h1, h2⟩ := span_class QChar.isDigit digits rest '=' hd (by decide)
  have e : "File".toList ++ digits ++ '=' :: rest =
      'F' :: 'i' :: 'l' :: 'e' :: (digits ++ '=' :: rest) := by simp
  rw [e]
  simp only [rxFile, h1, h2]
  cases digits with
  | nil => exact absurd rfl hn
  | cons a b =>
    cases rest with
    | nil => exact absurd rfl hr
    | cons x y => simp

theorem rxFile_iff (line rest : QString) : rxFile line = some rest ↔ IsFileLine line rest := by
  constructor
  · intro h
    unfold rxFile at h
    split at h
    · rename_i s
      split at h
      · rename_i rest1 hdrop
        split at h
        · exact absurd h (by simp)
        · rename_i hcond
          simp only [Bool.or_eq_true, not_or, List.isEmpty_iff] at hcond
          have hrest : rest1 = rest := by simpa using h
          subst hrest
          refine ⟨s.takeWhile QChar.isDigit, hcond.1, ?_, hcond.2, ?_⟩
          · intro d hd
            exact List.mem_takeWhile_imp hd
          · have := List.takeWhile_append_dropWhile QChar.isDigit s
            rw [hdrop] at this
            simp [this]
      · exact absurd h (by simp)
    · exact absurd h (by simp)
  · rintro ⟨digits, hn, hd, hr, rfl⟩
    exact rxFile_of_shape digits rest hn hr hd

theorem loadPLS_eq_filterMap (cut : Bool) (self : Playlist) (text : QString) :
    Playlist.loadPLS cut self text =
      (true, self ++ (textLines cut text).filterMap (fun l => (rxFile l).map Mrl.ofLocation)) := by
  unfold Playlist.loadPLS
  rw [loadPLSLoop_eq _ _ _ _ (le_refl _)]

/-- C4. PLS decoding goes by the order of the text: `loadPLS` appends one entry
for every line of the shape `File<digits>=<rest>`, in the order of the lines of
the text, with `<rest>` verbatim as locator and no display name. The number
after `File` does not enter the entry, and lines that begin with
`NumberOfEntries`, `Length` or `Version` give no entry. The text with `File2=b`
before `File1=a` decodes to `[b, a]`; a digit may be any decimal digit, as in
`File<U+0663>=x`; a carriage return before a line feed is not part of `<rest>`,
and one that ends the text is part of it unless the stream cuts it. -/
theorem loadPLS_order_by_text :
    (∀ (cutFinalCR : Bool) (self : Playlist) (text : QString),
      Playlist.loadPLS cutFinalCR self text =
        (true, self ++
          (textLines cutFinalCR text).filterMap (fun l => (rxFile l).map Mrl.ofLocation))) ∧
    (∀ line rest : QString, rxFile line = some rest ↔ IsFileLine line rest) ∧
    (∀ s : QString, rxFile ("NumberOfEntries".toList ++ s) = none ∧
      rxFile ("Length".toList ++ s) = none ∧ rxFile ("Version".toList ++ s) = none) ∧
    (∀ cutFinalCR : Bool, Playlist.loadPLS cutFinalCR [] "File2=b\nFile1=a\n".toList =
      (true, [Mrl.mk "b".toList [], Mrl.mk "a".toList []])) ∧
    (∀ cutFinalCR : Bool,
      Playlist.loadPLS cutFinalCR [] ("File".toList ++ Char.ofNat 0x663 :: "=x\n".toList) =
        (true, [Mrl.mk "x".toList []])) ∧
    (∀ cutFinalCR : Bool, Playlist.loadPLS cutFinalCR [] "File1=a\r\nFile2=b\r".toList =
      (true, [Mrl.mk "a".toList [],
        Mrl.mk (if cutFinalCR then "b".toList else "b\r".toList) []])) := by
  refine ⟨loadPLS_eq_filterMap, rxFile_iff, ?_, ?_, ?_, ?_⟩
  · intro s
    simp [rxFile]
  · intro c
    cases c <;> decide
  · intro c
    cases c <;> decide
  · intro c
    cases c <;> decide

/-! ## PLS encoding: proofs -/

theorem digitChar_isDigit (k : Nat) (hk : k < 10) : (Nat.digitChar k).isDigit = true := by
  interval_cases k <;> rfl

theorem toDigitsCore_isDigit (fuel n : Nat) (acc : List Char)
    (hacc : ∀ c ∈ acc, c.isDigit = true) :
    ∀ c ∈ Nat.toDigitsCore 10 fuel n acc, c.isDigit = true := by
  induction fuel generalizing n acc with
  | zero => simpa [Nat.toDigitsCore] using hacc
  | succ fuel ih =>
    have hd : (Nat.digitChar (n % 10)).isDigit = true :=
      digitChar_isDigit _ (Nat.mod_lt _ (by decide))
    have hacc2 : ∀ c ∈ Nat.digitChar (n % 10) :: acc, c.isDigit = true := by
      intro c hc
      rcases List.mem_cons.1 hc with rfl | hc
      · exact hd
      · exact hacc c hc
    rw [Nat.toDigitsCore]
    split
    · exact hacc2
    · exact ih _ _ hacc2

theorem toDigitsCore_ne_nil (fuel n : Nat) (acc : List Char) (hacc : acc ≠ []) :
    Nat.toDigitsCore 10 fuel n acc ≠ [] := by
  induction fuel generalizing n acc with
  | zero => simpa [Nat.toDigitsCore] using hacc
  | succ fuel ih =>
    rw [Nat.toDigitsCore]
    split
    · simp
    · exact ih _ _ (by simp)

theorem decimal_isDigit (n : Nat) : ∀ c ∈ decimal n, c.isDigit = true :=
  toDigitsCore_isDigit _ _ _ (by simp)

theorem decimal_ne_nil (n : Nat) : decimal n ≠ [] := by
  unfold decimal Nat.toDigits
  rw [Nat.toDigitsCore]
  split
  · simp
  · exact toDigitsCore_ne_nil _ _ _ (by simp)

theorem foldl_range_getD (g : Nat → Mrl → QString) (d : Mrl) (l pre : Playlist)
    (out : QString) :
    (List.range' pre.length l.length).foldl
        (fun out i => out ++ g i ((pre ++ l).getD i d)) out =
      out ++ concatIdx g pre.length l := by
  induction l generalizing pre out with
  | nil => simp [concatIdx]
  | cons m ms ih =>
    have e : pre ++ m :: ms = (pre ++ [m]) ++ ms := by simp
    have hlen : (pre ++ [m]).length = pre.length + 1 := by simp
    have hget : (pre ++ m :: ms).getD pre.length d = m := by
      rw [List.getD_append_right _ _ _ _ (le_refl _)]
      simp
    simp only [List.length_cons, List.range'_succ, List.foldl_cons, hget]
    rw [e, ← hlen, ih (pre ++ [m]) (out ++ g pre.length m), hlen]
    simp [concatIdx]

theorem foldl_range_concatIdx (g : Nat → Mrl → QString) (d : Mrl) (l : Playlist)
    (out : QString) :
    (List.range l.length).foldl (fun out i => out ++ g i (l.getD i d)) out =
      out ++ concatIdx g 0 l := by
  have := foldl_range_getD g d l [] out
  simpa [List.range_eq_range'] using this

theorem concatIdx_plsEntry (i : Nat) (pl : Playlist) :
    concatIdx (fun i m => plsEntry i m.toString) i pl =
      unlines (plsEntryLines (i + 1) (pl.map Mrl.toString)) := by
  induction pl generalizing i with
  | nil => rfl
  | cons m ms ih =>
    rw [concatIdx, ih]
    simp [plsEntryLines, unlines, plsEntry]

theorem savePLS_text (self : Playlist) :
    Playlist.savePLS self =
      (true, unlines ("[playlist]".toList :: ("NumberOfEntries=".toList ++ decimal self.length) ::
        [] :: (plsEntryLines 1 (self.map Mrl.toString) ++ ["Version=2".toList]))) := by
  unfold Playlist.savePLS
  simp only
  rw [foldl_range_concatIdx (fun i m => plsEntry i m.toString), concatIdx_plsEntry]
  simp [unlines, unlines_append]

/-- C8. The grammar of the PLS encoder: `savePLS` returns true and writes
exactly the lines `[playlist]`, `NumberOfEntries=N`, an empty line, then for
every entry, in playlist order and numbered from 1, the lines `File<i>=<l_i>`,
`Length<i>=-1` and an empty line, then the line `Version=2`. For the locators
`a` and `b` the text is the one spelled out. -/
theorem savePLS_grammar :
    (∀ self : Playlist, Playlist.savePLS self =
      (true, unlines ("[playlist]".toList :: ("NumberOfEntries=".toList ++ decimal self.length) ::
        [] :: (plsEntryLines 1 (self.map Mrl.toString) ++ ["Version=2".toList])))) ∧
    (∀ (i : Nat) (loc : QString) (locs : List QString), plsEntryLines i (loc :: locs) =
      ("File".toList ++ decimal i ++ '=' :: loc) ::
        ("Length".toList ++ decimal i ++ "=-1".toList) :: [] :: plsEntryLines (i + 1) locs) ∧
    Playlist.savePLS [Mrl.mk "a".toList "x".toList, Mrl.mk "b".toList []] =
      (true, ("[playlist]\nNumberOfEntries=2\n\nFile1=a\nLength1=-1\n\n" ++
        "File2=b\nLength2=-1\n\nVersion=2\n").toList) :=
  ⟨savePLS_text, fun _ _ _ => rfl, by decide⟩

/-! ## PLS round trip: proofs -/

theorem noBreak_append {a b : QString} (ha : ∀ c ∈ a, isLineBreak c = false)
    (hb : ∀ c ∈ b, isLineBreak c = false) : ∀ c ∈ a ++ b, isLineBreak c = false := by
  intro c hc
  rcases List.mem_append.1 hc with h | h
  · exact ha c h
  · exact hb c h

theorem noBreak_of_isDigit {a : QString} (ha : ∀ c ∈ a, c.isDigit = true) :
    ∀ c ∈ a, isLineBreak c = false := by
  intro c hc
  have hd := ha c hc
  simp only [Char.isDigit, ge_iff_le, Bool.and_eq_true, decide_eq_true_eq] at hd
  have h1 : (48 : Nat) ≤ c.toNat := hd.1
  have h2 : c.toNat ≤ 57 := hd.2
  simp only [isLineBreak, Bool.or_eq_false_iff, Bool.and_eq_false_iff, decide_eq_false_iff_not,
    beq_eq_false_iff_ne, ne_eq]
  omega

theorem lf_not_mem {l : QString} (h : ∀ c ∈ l, isLineBreak c = false) : '\n' ∉ l := by
  intro hm
  have := h _ hm
  exact absurd this (by decide)

theorem getLast_ne_cr {l : QString} (h : ∀ c ∈ l, isLineBreak c = false) :
    l.getLast? ≠ some '\r' := by
  intro hl
  have := h _ (List.mem_of_mem_getLast? (Option.mem_def.2 hl))
  exact absurd this (by decide)

theorem textLines_unlines (cut : Bool) (ls : List QString)
    (h : ∀ l ∈ ls, ∀ c ∈ l, isLineBreak c = false) : textLines cut (unlines ls) = ls := by
  unfold textLines
  rw [rawLines_unlines ls (fun l hl => lf_not_mem (h l hl))]
  exact chopLines_id _ ls (fun l hl => getLast_ne_cr (h l hl))

theorem noBreak_plsEntryLines (i : Nat) (locs : List QString)
    (h : ∀ loc ∈ locs, ∀ c ∈ loc, isLineBreak c = false) :
    ∀ l ∈ plsEntryLines i locs, ∀ c ∈ l, isLineBreak c = false := by
  induction locs generalizing i with
  | nil => simp [plsEntryLines]
  | cons loc locs ih =>
    have hdec := noBreak_of_isDigit (decimal_isDigit i)
    have hloc := h loc (by simp)
    intro l hl
    simp only [plsEntryLines, List.mem_cons] at hl
    rcases hl with rfl | rfl | rfl | hl
    · refine noBreak_append (noBreak_append (by decide) hdec) ?_
      intro c hc
      rcases List.mem_cons.1 hc with rfl | hc
      · decide
      · exact hloc c hc
    · exact noBreak_append (noBreak_append (by decide) hdec) (by decide)
    · simp
    · exact ih (i + 1) (fun x hx => h x (by simp [hx])) l hl

theorem filterMap_plsEntryLines (i : Nat) (locs : List QString) (h : ∀ loc ∈ locs, loc ≠ []) :
    (plsEntryLines i locs).filterMap (fun l => (rxFile l).map Mrl.ofLocation) =
      locs.map Mrl.ofLocation := by
  induction locs generalizing i with
  | nil => rfl
  | cons loc locs ih =>
    have h1 : rxFile ("File".toList ++ decimal i ++ '=' :: loc) = some loc :=
      rxFile_of_shape _ _ (decimal_ne_nil i) (h loc (by simp))
        (fun d hd => isDigit_of_ascii d (decimal_isDigit i d hd))
    have h2 : rxFile ("Length".toList ++ decimal i ++ "=-1".toList) = none := by
      simp [rxFile]
    rw [plsEntryLines, List.filterMap_cons_some (by rw [h1]; rfl),
      List.filterMap_cons_none (by rw [h2]; rfl), List.filterMap_cons_none (by rfl),
      ih (i + 1) (fun x hx => h x (by simp [hx]))]
    rfl

theorem loadPLS_savePLS (cut : Bool) (pl : Playlist)
    (h : ∀ m ∈ pl, m.toString ≠ [] ∧ ∀ c ∈ m.toString, isLineBreak c = false) :
    Playlist.loadPLS cut [] (Playlist.savePLS pl).2 =
      (true, pl.map (fun m => Mrl.ofLocation m.toString)) := by
  have hnb : ∀ loc ∈ pl.map Mrl.toString, ∀ c ∈ loc, isLineBreak c = false := by
    intro loc hloc
    obtain ⟨m, hm, rfl⟩ := List.mem_map.1 hloc
    exact (h m hm).2
  have hne : ∀ loc ∈ pl.map Mrl.toString, loc ≠ [] := by
    intro loc hloc
    obtain ⟨m, hm, rfl⟩ := List.mem_map.1 hloc
    exact (h m hm).1
  have hlines : ∀ l ∈ "[playlist]".toList ::
      ("NumberOfEntries=".toList ++ decimal pl.length) :: [] ::
        (plsEntryLines 1 (pl.map Mrl.toString) ++ ["Version=2".toList]),
      ∀ c ∈ l, isLineBreak c = false := by
    intro l hl
    simp only [List.mem_cons, List.mem_append, List.mem_singleton, List.not_mem_nil,
      or_false] at hl
    rcases hl with rfl | rfl | rfl | hl | rfl
    · decide
    · exact noBreak_append (by decide) (noBreak_of_isDigit (decimal_isDigit _))
    · simp
    · exact noBreak_plsEntryLines 1 _ hnb l hl
    · decide
  have h2 : rxFile ("NumberOfEntries=".toList ++ decimal pl.length) = none := by
    simp [rxFile]
  rw [savePLS_text, (loadPLS_eq_filterMap _ _ _), textLines_unlines _ _ hlines]
  rw [List.filterMap_cons_none (by rfl), List.filterMap_cons_none (by rw [h2]; rfl),
    List.filterMap_cons_none (by rfl), List.filterMap_append,
    filterMap_plsEntryLines 1 _ hne]
  simp [List.filterMap, rxFile]

/-- C1. PLS round trip: a playlist whose locators are not empty and hold no
line-break character, written with `savePLS` and read back with `loadPLS` into
an empty playlist, gives a playlist of the same length with the same locator
strings in the same order. -/
theorem pls_round_trip (cutFinalCR : Bool) (pl : Playlist)
    (h : ∀ m ∈ pl, m.toString ≠ [] ∧ ∀ c ∈ m.toString, isLineBreak c = false) :
    (Playlist.loadPLS cutFinalCR [] (Playlist.savePLS pl).2).1 = true ∧
    (Playlist.loadPLS cutFinalCR [] (Playlist.savePLS pl).2).2.length = pl.length ∧
    (Playlist.loadPLS cutFinalCR [] (Playlist.savePLS pl).2).2.map Mrl.toString =
      pl.map Mrl.toString := by
  rw [loadPLS_savePLS cutFinalCR pl h]
  refine ⟨rfl, by simp, ?_⟩
  simp [Mrl.toString, Mrl.ofLocation]

/-- Witness of C1 on a playlist of three entries. -/
theorem pls_round_trip_witness :
    (∀ m ∈ [Mrl.mk "/music/a.mp3".toList "A".toList, Mrl.mk "http://h/b.ogg".toList [],
        Mrl.mk "c d.flac".toList "x".toList],
      m.toString ≠ [] ∧ ∀ c ∈ m.toString, isLineBreak c = false) ∧
    (Playlist.loadPLS false [] (Playlist.savePLS [Mrl.mk "/music/a.mp3".toList "A".toList,
        Mrl.mk "http://h/b.ogg".toList [], Mrl.mk "c d.flac".toList "x".toList]).2).2.map
      Mrl.toString = ["/music/a.mp3".toList, "http://h/b.ogg".toList, "c d.flac".toList] :=
  ⟨by decide, (pls_round_trip false _ (by decide)).2.2⟩

/-! ## M3U decoding as a pass over lines: proofs -/

theorem isEmpty_eq_false {l : QString} (h : l ≠ []) : l.isEmpty = false := by
  cases l with
  | nil => exact absurd rfl h
  | cons _ _ => rfl

theorem getNextLocation_nil (cut : Bool) (fuel : Nat) :
    getNextLocation cut fuel [] = ([], []) := by
  cases fuel <;> simp [getNextLocation]

theorem getNextLocation_spec (cut : Bool) (fuel : Nat) (input : QString)
    (h : input.length ≤ fuel) :
    (getNextLocation cut fuel input).1 = (nextPlain (textLines cut input)).1 ∧
    textLines cut (getNextLocation cut fuel input).2 = (nextPlain (textLines cut input)).2 ∧
    (getNextLocation cut fuel input).2.length ≤ input.length := by
  induction fuel generalizing input with
  | zero =>
    have : input = [] := List.length_eq_zero.1 (Nat.le_zero.1 h)
    subst this
    simp [getNextLocation, textLines_nil, nextPlain]
  | succ fuel ih =>
    by_cases hin : input = []
    · subst hin
      simp [getNextLocation, textLines_nil, nextPlain]
    · have hlt := scanLine_length_lt input hin
      have hrest : (readLine cut input).2.length ≤ fuel := by
        rw [readLine_snd]
        omega
      have hlen : (readLine cut input).2.length ≤ input.length := by
        rw [readLine_snd]
        omega
      rw [textLines_eq cut input hin, getNextLocation, nextPlain]
      simp only [isEmpty_eq_false hin, Bool.false_eq_true, if_false]
      by_cases hp : isPlain (readLine cut input).1 = true
      · have hp2 := hp
        unfold isPlain at hp2
        simp only [hp2, hp, if_true]
        exact ⟨trivial, trivial, hlen⟩
      · have hp2 := hp
        unfold isPlain at hp2
        simp only [hp2, hp, if_false]
        obtain ⟨h1, h2, h3⟩ := ih _ hrest
        exact ⟨h1, h2, le_trans h3 hlen⟩

theorem nextPlain_isEmpty (ls : List QString) :
    (nextPlain ls).1.isEmpty = true → (nextPlain ls).2 = [] := by
  induction ls with
  | nil => intro _; rfl
  | cons l ls ih =>
    unfold nextPlain
    by_cases hp : isPlain l = true
    · simp only [hp, if_true]
      intro he
      unfold isPlain at hp
      simp [he] at hp
    · simp only [hp, if_false]
      exact ih

theorem m3uRun_some (name : QString) (ls : List QString) :
    m3uRun (some name) ls =
      if (nextPlain ls).1.isEmpty then m3uRun none (nextPlain ls).2
      else Mrl.mk (nextPlain ls).1 name :: m3uRun none (nextPlain ls).2 := by
  induction ls with
  | nil => simp [m3uRun, nextPlain]
  | cons l ls ih =>
    unfold nextPlain
    by_cases hp : isPlain l = true
    · have hne : (trimmed l).isEmpty = false := by
        unfold isPlain at hp
        cases h : (trimmed l).isEmpty
        · rfl
        · simp [h] at hp
      simp [m3uRun, hp, hne]
    · simp only [m3uRun, hp, if_false, Bool.false_eq_true]
      exact ih

theorem loadM3ULoop_nil (cut : Bool) (fuel : Nat) (self : Playlist) :
    Playlist.loadM3ULoop cut fuel [] self = self := by
  cases fuel <;> simp [Playlist.loadM3ULoop]

theorem loadM3ULoop_eq (cut : Bool) (fuel : Nat) (input : QString) (self : Playlist)
    (h : input.length ≤ fuel) :
    Playlist.loadM3ULoop cut fuel input self = self ++ m3uRun none (textLines cut input) := by
  induction fuel generalizing input self with
  | zero =>
    have : input = [] := List.length_eq_zero.1 (Nat.le_zero.1 h)
    subst this
    simp [Playlist.loadM3ULoop, textLines_nil, m3uRun]
  | succ fuel ih =>
    by_cases hin : input = []
    · subst hin
      simp [Playlist.loadM3ULoop, textLines_nil, m3uRun]
    · have hlt := scanLine_length_lt input hin
      have hrest : (readLine cut input).2.length ≤ fuel := by
        rw [readLine_snd]
        omega
      obtain ⟨g1, g2, g3⟩ := getNextLocation_spec cut (readLine cut input).2.length (readLine cut input).2
        (le_refl _)
      have hnext : (getNextLocation cut (readLine cut input).2.length (readLine cut input).2).2.length ≤
          fuel := le_trans g3 hrest
      rw [textLines_eq cut input hin, Playlist.loadM3ULoop, m3uRun]
      simp only [isEmpty_eq_false hin, Bool.false_eq_true, if_false]
      by_cases he : (trimmed (readLine cut input).1).isEmpty = true
      · simp only [he, if_true]
        exact ih _ _ hrest
      · simp only [he, if_false, Bool.false_eq_true]
        by_cases hs : startsWith (trimmed (readLine cut input).1) '#' = true
        · simp only [hs, if_true]
          cases hr : rxExtInf (trimmed (readLine cut input).1) with
          | none =>
            simp only [List.isEmpty_nil, Bool.not_true, Bool.false_eq_true, if_false]
            exact ih _ _ hrest
          | some name =>
            simp only [m3uRun_some, ← g1, ← g2]
            by_cases hl :
                (getNextLocation cut (readLine cut input).2.length (readLine cut input).2).1.isEmpty = true
            · simp only [hl, Bool.not_true, Bool.false_eq_true, if_false, if_true]
              exact ih _ _ hnext
            · simp only [hl, Bool.not_false, if_true, if_false, Bool.false_eq_true]
              rw [ih _ _ hnext]
              simp
        · simp only [hs, if_false, Bool.false_eq_true]
          simp only [m3uRun_some, ← g1, ← g2]
          by_cases hl :
              (getNextLocation cut (readLine cut input).2.length (readLine cut input).2).1.isEmpty = true
          · simp only [hl, Bool.not_true, Bool.false_eq_true, if_false, if_true]
            exact ih _ _ hnext
          · simp only [hl, Bool.not_false, if_true, if_false, Bool.false_eq_true]
            rw [ih _ _ hnext]
            simp

theorem loadM3U_eq_m3uRun (cut : Bool) (self : Playlist) (text : QString) :
    Playlist.loadM3U cut self text = (true, self ++ m3uRun none (textLines cut text)) := by
  unfold Playlist.loadM3U
  rw [loadM3ULoop_eq _ _ _ _ (le_refl _)]

/-! ## M3U lookahead on plain lines: proofs -/

theorem rawLines_single (l : QString) (hne : l ≠ []) (h : '\n' ∉ l) : rawLines l = [l] := by
  induction l with
  | nil => exact absurd rfl hne
  | cons c l ih =>
    have hc : c ≠ '\n' := fun e => h (by simp [e])
    have hl : '\n' ∉ l := fun e => h (by simp [e])
    cases l with
    | nil => simp [rawLines, hc]
    | cons d t =>
      rw [rawLines, if_neg hc, ih (by simp) hl]

theorem rawLines_joinLines (ls : List QString) (h : ∀ l ∈ ls, l ≠ [] ∧ '\n' ∉ l) :
    rawLines (joinLines ls) = ls := by
  induction ls with
  | nil => rfl
  | cons l ls ih =>
    cases ls with
    | nil => exact rawLines_single l (h l (by simp)).1 (h l (by simp)).2
    | cons l2 r =>
      rw [joinLines, rawLines_append_lf l _ (h l (by simp)).2,
        ih (fun x hx => h x (by simp [hx]))]

theorem isPlain_ne_nil {l : QString} (h : isPlain l = true) : l ≠ [] := by
  rintro rfl
  exact absurd h (by decide)

theorem concatIdx_m3uEntry (i : Nat) (pl : Playlist) :
    concatIdx (fun _ m => "#EXTINF:0,".toList ++ '\n' :: m.toString ++ '\n' :: []) i pl =
      unlines (m3uEntryLines (pl.map Mrl.toString)) := by
  induction pl generalizing i with
  | nil => rfl
  | cons m ms ih =>
    rw [concatIdx, ih]
    simp [m3uEntryLines, unlines]

theorem saveM3U_text (self : Playlist) :
    Playlist.saveM3U self =
      (true, unlines ("#EXTM3U".toList :: m3uEntryLines (self.map Mrl.toString))) := by
  have hf : (fun (out : QString) (i : Nat) => out ++ "#EXTINF:".toList ++ decimal 0 ++
        ',' :: '\n' :: (self.getD i (Mrl.ofLocation [])).toString ++ '\n' :: []) =
      (fun out i => out ++
        ("#EXTINF:0,".toList ++ '\n' :: (self.getD i (Mrl.ofLocation [])).toString ++
          '\n' :: [])) := by
    funext out i
    have hd : decimal 0 = ['0'] := rfl
    simp [hd]
  have key := foldl_range_concatIdx
    (fun (_ : Nat) (m : Mrl) => "#EXTINF:0,".toList ++ '\n' :: m.toString ++ '\n' :: [])
    (Mrl.ofLocation []) self ("#EXTM3U".toList ++ '\n' :: [])
  simp only at key
  unfold Playlist.saveM3U
  simp only [hf]
  rw [key, concatIdx_m3uEntry]
  simp [unlines]

theorem noBreak_m3uEntryLines (locs : List QString)
    (h : ∀ loc ∈ locs, ∀ c ∈ loc, isLineBreak c = false) :
    ∀ l ∈ m3uEntryLines locs, ∀ c ∈ l, isLineBreak c = false := by
  induction locs with
  | nil => simp [m3uEntryLines]
  | cons loc locs ih =>
    intro l hl
    simp only [m3uEntryLines, List.mem_cons] at hl
    rcases hl with rfl | rfl | hl
    · decide
    · exact h _ (by simp)
    · exact ih (fun x hx => h x (by simp [hx])) l hl

theorem m3uRun_entryLines (locs : List QString) (h : ∀ loc ∈ locs, isPlain loc = true) :
    m3uRun none (m3uEntryLines locs) = locs.map (fun loc => Mrl.mk (trimmed loc) []) := by
  induction locs with
  | nil => rfl
  | cons loc locs ih =>
    have t1 : trimmed "#EXTINF:0,".toList = "#EXTINF:0,".toList := by decide
    have t2 : rxExtInf "#EXTINF:0,".toList = some [] := by decide
    have t3 : startsWith "#EXTINF:0,".toList '#' = true := by decide
    have hp : isPlain loc = true := h loc (by simp)
    rw [m3uEntryLines, m3uRun, t1, t3, t2]
    simp only [List.isEmpty_cons, Bool.false_eq_true, if_false, if_true, String.toList]
    rw [m3uRun, if_pos hp, ih (fun x hx => h x (by simp [hx]))]
    rfl

theorem loadM3U_saveM3U (cut : Bool) (pl : Playlist)
    (h : ∀ m ∈ pl, m.toString ≠ [] ∧ (∀ c ∈ m.toString, isLineBreak c = false) ∧
      trimmed m.toString = m.toString ∧ startsWith m.toString '#' = false) :
    Playlist.loadM3U cut [] (Playlist.saveM3U pl).2 =
      (true, pl.map (fun m => Mrl.mk m.toString [])) := by
  have hplain : ∀ loc ∈ pl.map Mrl.toString, isPlain loc = true := by
    intro loc hloc
    obtain ⟨m, hm, rfl⟩ := List.mem_map.1 hloc
    obtain ⟨h1, _, h3, h4⟩ := h m hm
    unfold isPlain
    rw [h3, h4, isEmpty_eq_false h1]
    rfl
  have hlines : ∀ l ∈ "#EXTM3U".toList :: m3uEntryLines (pl.map Mrl.toString),
      ∀ c ∈ l, isLineBreak c = false := by
    intro l hl
    rcases List.mem_cons.1 hl with rfl | hl
    · decide
    · refine noBreak_m3uEntryLines _ ?_ l hl
      intro loc hloc
      obtain ⟨m, hm, rfl⟩ := List.mem_map.1 hloc
      exact (h m hm).2.1
  have t1 : trimmed "#EXTM3U".toList = "#EXTM3U".toList := by decide
  have t2 : rxExtInf "#EXTM3U".toList = none := by decide
  have t3 : startsWith "#EXTM3U".toList '#' = true := by decide
  rw [saveM3U_text, loadM3U_eq_m3uRun, textLines_unlines _ _ hlines, m3uRun, t1, t3, t2]
  simp only [List.isEmpty_cons, Bool.false_eq_true, if_false, if_true, String.toList]
  rw [m3uRun_entryLines _ hplain]
  simp only [List.nil_append, List.map_map]
  congr 1
  apply List.map_congr_left
  intro m hm
  simp only [Function.comp, (h m hm).2.2.1]

/-- C2. M3U round trip on the locators: a playlist whose locators are not
empty, hold no line-break character, have no whitespace at either end and do
not begin with `#`, written with `saveM3U` and read back with `loadM3U` into an
empty playlist, gives a playlist of the same length with the same locator
strings in the same order; every entry read back has an empty display name. -/
theorem m3u_round_trip (cutFinalCR : Bool) (pl : Playlist)
    (h : ∀ m ∈ pl, m.toString ≠ [] ∧ (∀ c ∈ m.toString, isLineBreak c = false) ∧
      trimmed m.toString = m.toString ∧ startsWith m.toString '#' = false) :
    (Playlist.loadM3U cutFinalCR [] (Playlist.saveM3U pl).2).1 = true ∧
    (Playlist.loadM3U cutFinalCR [] (Playlist.saveM3U pl).2).2.length = pl.length ∧
    (Playlist.loadM3U cutFinalCR [] (Playlist.saveM3U pl).2).2.map Mrl.toString =
      pl.map Mrl.toString ∧
    ∀ m ∈ (Playlist.loadM3U cutFinalCR [] (Playlist.saveM3U pl).2).2, m.name = [] := by
  rw [loadM3U_saveM3U cutFinalCR pl h]
  refine ⟨rfl, by simp, by simp [Mrl.toString], ?_⟩
  intro m hm
  obtain ⟨x, _, rfl⟩ := List.mem_map.1 hm
  rfl

/-- Witness of C2 on a playlist of two entries, one of them named. -/
theorem m3u_round_trip_witness :
    (∀ m ∈ [Mrl.mk "a".toList "first".toList, Mrl.mk "/music/b c.mp3".toList []],
      m.toString ≠ [] ∧ (∀ c ∈ m.toString, isLineBreak c = false) ∧
        trimmed m.toString = m.toString ∧ startsWith m.toString '#' = false) ∧
    (Playlist.loadM3U false []
        (Playlist.saveM3U [Mrl.mk "a".toList "first".toList,
          Mrl.mk "/music/b c.mp3".toList []]).2).2.map Mrl.toString =
      ["a".toList, "/music/b c.mp3".toList] :=
  ⟨by decide, (m3u_round_trip false _ (by decide)).2.2.1⟩

/-! ## M3U directive lines: proofs -/

theorem rdropWhile_append_cons_neg {p : Char → Bool} (a b : QString) (c : Char)
    (hc : ¬ p c = true) : (a ++ c :: b).rdropWhile p = a ++ c :: b.rdropWhile p := by
  induction b using List.reverseRecOn with
  | nil =>
    rw [List.rdropWhile_nil]
    exact List.rdropWhile_concat_neg p a c hc
  | append_singleton b x ih =>
    have e : a ++ c :: (b ++ [x]) = (a ++ c :: b) ++ [x] := by simp
    by_cases hx : p x = true
    · rw [e, List.rdropWhile_concat_pos _ _ _ hx, List.rdropWhile_concat_pos _ _ _ hx, ih]
    · rw [e, List.rdropWhile_concat_neg _ _ _ hx, List.rdropWhile_concat_neg _ _ _ hx]
      simp

theorem rdropWhile_cons_pos {p : Char → Bool} (x : Char) (t : QString) (hx : p x = true) :
    (x :: t).rdropWhile p = if t.rdropWhile p = [] then [] else x :: t.rdropWhile p := by
  induction t using List.reverseRecOn with
  | nil =>
    rw [List.rdropWhile_nil, if_pos rfl]
    have := List.rdropWhile_concat_pos p [] x hx
    simpa using this
  | append_singleton t z ih =>
    have e : x :: (t ++ [z]) = (x :: t) ++ [z] := by simp
    by_cases hz : p z = true
    · rw [e, List.rdropWhile_concat_pos _ _ _ hz, List.rdropWhile_concat_pos _ _ _ hz, ih]
    · rw [e, List.rdropWhile_concat_neg _ _ _ hz, List.rdropWhile_concat_neg _ _ _ hz]
      simp

theorem dropWhile_rdropWhile_comm (p : Char → Bool) (l : QString) :
    (l.rdropWhile p).dropWhile p = (l.dropWhile p).rdropWhile p := by
  induction l with
  | nil => simp
  | cons x t ih =>
    by_cases hx : p x = true
    · rw [rdropWhile_cons_pos x t hx, List.dropWhile_cons_of_pos hx, ← ih]
      split
      · rename_i h
        rw [h]
      · rw [List.dropWhile_cons_of_pos hx]
    · have h1 := rdropWhile_append_cons_neg (p := p) [] t x hx
      simp only [List.nil_append] at h1
      rw [h1, List.dropWhile_cons_of_neg hx, List.dropWhile_cons_of_neg hx, h1]

theorem trimmed_eq (l : QString) : trimmed l = (l.rdropWhile isSpace).dropWhile isSpace :=
  (dropWhile_rdropWhile_comm isSpace l).symm

theorem trimmed_chopCR (l : QString) : trimmed (chopCR l) = trimmed l := by
  unfold chopCR
  split
  · rename_i h
    have hl : l.dropLast ++ ['\r'] = l := List.dropLast_append_getLast? _ (Option.mem_def.2 h)
    have hcr : isSpace '\r' = true := by decide
    rw [trimmed_eq, trimmed_eq l]
    conv_rhs => rw [← hl, List.rdropWhile_concat_pos _ _ _ hcr]
  · rfl

theorem map_trimmed_chopLines (b : Bool) : ∀ ls : List QString,
    (chopLines b ls).map trimmed = ls.map trimmed
  | [] => rfl
  | [l] => by
    cases b <;> simp [chopLines, trimmed_chopCR]
  | l :: l2 :: ls => by
    rw [chopLines, List.map_cons, List.map_cons, trimmed_chopCR,
      map_trimmed_chopLines b (l2 :: ls)]

theorem m3uRun_congr : ∀ (state : Option QString) (ls ls2 : List QString),
    ls.map trimmed = ls2.map trimmed → m3uRun state ls = m3uRun state ls2
  | _, [], [], _ => rfl
  | _, [], _ :: _, h => by simp at h
  | _, _ :: _, [], h => by simp at h
  | some name, l :: ls, l2 :: ls2, h => by
    simp only [List.map_cons, List.cons.injEq] at h
    have ih1 := m3uRun_congr none ls ls2 h.2
    have ih2 := m3uRun_congr (some name) ls ls2 h.2
    simp only [m3uRun, isPlain, h.1, ih1, ih2]
  | none, l :: ls, l2 :: ls2, h => by
    simp only [List.map_cons, List.cons.injEq] at h
    have ih1 := m3uRun_congr none ls ls2 h.2
    have ih2 := fun name => m3uRun_congr (some name) ls ls2 h.2
    simp only [m3uRun, h.1, ih1, ih2]

theorem loadM3U_eq_rawLines (cut : Bool) (self : Playlist) (text : QString) :
    Playlist.loadM3U cut self text = (true, self ++ m3uRun none (rawLines text)) := by
  rw [loadM3U_eq_m3uRun]
  unfold textLines
  rw [m3uRun_congr none _ _ (map_trimmed_chopLines _ _)]

theorem dropWhile_eq_of_takeWhile {p q : Char → Bool} (hqp : ∀ c, q c = true → p c = true) :
    ∀ r : QString, (∀ c ∈ r.takeWhile p, q c = true) → r.dropWhile q = r.dropWhile p
  | [], _ => rfl
  | x :: t, h => by
    by_cases hx : p x = true
    · have hq : q x = true := h x (by simp [List.takeWhile, hx])
      rw [List.dropWhile_cons_of_pos hx, List.dropWhile_cons_of_pos hq]
      exact dropWhile_eq_of_takeWhile hqp t (fun c hc => h c (by simp [List.takeWhile, hx, hc]))
    · have hq : ¬ q x = true := fun e => hx (hqp x e)
      rw [List.dropWhile_cons_of_neg hx, List.dropWhile_cons_of_neg hq]

theorem mem_takeWhile_append {p : Char → Bool} : ∀ (a b : QString) (c : Char),
    c ∈ a.takeWhile p → c ∈ (a ++ b).takeWhile p
  | [], _, _, h => by simp at h
  | x :: t, b, c, h => by
    by_cases hx : p x = true
    · simp only [List.takeWhile, hx, List.cons_append, List.mem_cons] at h ⊢
      rcases h with e | e
      · exact Or.inl e
      · exact Or.inr (mem_takeWhile_append t b c e)
    · simp [List.takeWhile, hx] at h

theorem reSpace_isSpace (c : Char) (h : reSpace c = true) : isSpace c = true := by
  simp only [reSpace, Bool.or_eq_true, beq_iff_eq, Bool.and_eq_true, decide_eq_true_eq] at h
  simp only [isSpace, Bool.or_eq_true, beq_iff_eq, Bool.and_eq_true, decide_eq_true_eq]
  omega

theorem reSpace_of_isDigit (c : Char) (h : c.isDigit = true) : reSpace c = false := by
  simp only [Char.isDigit, ge_iff_le, Bool.and_eq_true, decide_eq_true_eq] at h
  have h1 : (48 : Nat) ≤ c.toNat := h.1
  have h2 : c.toNat ≤ 57 := h.2
  simp only [reSpace, Bool.or_eq_false_iff, Bool.and_eq_false_iff, decide_eq_false_iff_not,
    beq_eq_false_iff_ne, ne_eq]
  omega

theorem rxNameTail_full (s : QString) (h : '\n' ∉ s) : rxNameTail s s.length = some s := by
  cases hs : s.length with
  | zero =>
    have : s = [] := List.length_eq_zero.1 hs
    subst this
    rfl
  | succ k =>
    have hall : (s.take (k + 1)).all (fun c => c != '\n') = true := by
      rw [← hs, List.take_length, List.all_eq_true]
      intro c hc
      simp only [bne_iff_ne, ne_eq]
      rintro rfl
      exact h hc
    have hdrop : s.drop (k + 1) = [] := by
      rw [← hs, List.drop_length]
    have hend : rxEnd [] = true := rfl
    rw [rxNameTail, hall, hdrop, hend]
    simp only [Bool.and_self, if_true]
    rw [← hs, List.take_length]

theorem rxOptMinus_of_isDigit (d : Char) (r : QString) (h : d.isDigit = true) :
    rxOptMinus (d :: r) = d :: r := by
  unfold rxOptMinus
  split
  · rename_i t heq
    injection heq with h1 h2
    subst h1
    exact absurd h (by decide)
  · rfl

theorem rxExtInfNum_of_shape (sign digits name : QString) (hsign : sign = [] ∨ sign = ['-'])
    (hn : digits ≠ []) (hd : ∀ d ∈ digits, d.isDigit = true) (hname : '\n' ∉ name) :
    rxExtInfNum (sign ++ digits ++ ',' :: name) = some (name.dropWhile reSpace) := by
  obtain ⟨h1, h2⟩ := span_class Char.isDigit digits name ',' hd (by decide)
  have hs4 : rxOptMinus ((sign ++ digits ++ ',' :: name).dropWhile reSpace) =
      digits ++ ',' :: name := by
    cases digits with
    | nil => exact absurd rfl hn
    | cons d ds =>
      have hdd : d.isDigit = true := hd d (by simp)
      have hsp : reSpace d = false := reSpace_of_isDigit d hdd
      rcases hsign with rfl | rfl
      · simp only [List.nil_append, List.cons_append, List.dropWhile, hsp]
        exact rxOptMinus_of_isDigit d _ hdd
      · have hm : reSpace '-' = false := by decide
        simp only [List.cons_append, List.nil_append, List.dropWhile, hm]
        rfl
  have hne : (digits.isEmpty) = false := isEmpty_eq_false hn
  have hcomma : reSpace ',' = false := by decide
  have hnb : '\n' ∉ name.dropWhile reSpace :=
    fun hc => hname ((List.dropWhile_sublist _).subset hc)
  unfold rxExtInfNum
  simp only [hs4, h1, h2, hne, Bool.false_eq_true, if_false, List.dropWhile, hcomma]
  exact rxNameTail_full _ hnb

theorem rxExtInf_of_shape (sign digits name : QString) (hsign : sign = [] ∨ sign = ['-'])
    (hn : digits ≠ []) (hd : ∀ d ∈ digits, d.isDigit = true) (hname : '\n' ∉ name) :
    rxExtInf ("#EXTINF:".toList ++ sign ++ digits ++ ',' :: name) =
      some (name.dropWhile reSpace) := by
  have e : "#EXTINF:".toList ++ sign ++ digits ++ ',' :: name =
      '#' :: 'E' :: 'X' :: 'T' :: 'I' :: 'N' :: 'F' :: ':' :: (sign ++ digits ++ ',' :: name) := by
    simp
  have hcolon : reSpace ':' = false := by decide
  have hat : rxExtInfAt ('#' :: 'E' :: 'X' :: 'T' :: 'I' :: 'N' :: 'F' :: ':' ::
      (sign ++ digits ++ ',' :: name)) = some (name.dropWhile reSpace) := by
    simp only [rxExtInfAt, List.dropWhile, hcolon]
    exact rxExtInfNum_of_shape sign digits name hsign hn hd hname
  rw [e, rxExtInf, hat]

theorem trimmed_directive (pre name : QString) :
    trimmed ('#' :: pre ++ ',' :: name) = '#' :: pre ++ ',' :: name.rdropWhile isSpace := by
  have h1 : isSpace '#' = false := by decide
  have h2 : ¬ isSpace ',' = true := by decide
  unfold trimmed
  rw [List.cons_append, List.dropWhile_cons_of_neg (by simp [h1])]
  exact rdropWhile_append_cons_neg ('#' :: pre) name ',' h2

theorem trimmed_extinf (sign digits name : QString) :
    trimmed ("#EXTINF:".toList ++ sign ++ digits ++ ',' :: name) =
      "#EXTINF:".toList ++ sign ++ digits ++ ',' :: name.rdropWhile isSpace := by
  have := trimmed_directive ("EXTINF:".toList ++ sign ++ digits) name
  simpa using this

theorem m3uRun_extinf (sign digits name loc : QString) (hsign : sign = [] ∨ sign = ['-'])
    (hn : digits ≠ []) (hd : ∀ d ∈ digits, d.isDigit = true)
    (hname : '\n' ∉ name) (hloc : isPlain loc = true) :
    m3uRun none ["#EXTM3U".toList, "#EXTINF:".toList ++ sign ++ digits ++ ',' :: name, loc] =
      [Mrl.mk (trimmed loc) ((name.rdropWhile isSpace).dropWhile reSpace)] := by
  have t1 : trimmed "#EXTM3U".toList = "#EXTM3U".toList := by decide
  have t2 : rxExtInf "#EXTM3U".toList = none := by decide
  have t3 : startsWith "#EXTM3U".toList '#' = true := by decide
  have hnb : '\n' ∉ name.rdropWhile isSpace :=
    fun hc => hname ((List.rdropWhile_prefix _ _).subset hc)
  have hrx := rxExtInf_of_shape sign digits (name.rdropWhile isSpace) hsign hn hd hnb
  have hstart : startsWith ("#EXTINF:".toList ++ sign ++ digits ++
      ',' :: name.rdropWhile isSpace) '#' = true := by
    simp [startsWith]
  have hne : ("#EXTINF:".toList ++ sign ++ digits ++
      ',' :: name.rdropWhile isSpace).isEmpty = false := by
    simp
  have t0 : "#EXTM3U".toList.isEmpty = false := rfl
  rw [m3uRun, t1, t0, t3, t2]
  simp only [Bool.false_eq_true, if_false, if_true]
  rw [m3uRun, trimmed_extinf, hne, hstart, hrx]
  simp only [Bool.false_eq_true, if_false, if_true]
  rw [m3uRun, if_pos hloc, m3uRun]

/-- C5, counterexample. A directive whose name begins with a no-break space
(U+00A0): the display name read keeps that whitespace character, while the
name with its surrounding whitespace removed is `Song One`. -/
theorem loadM3U_extinf_leading_nbsp :
    Playlist.loadM3U false []
        ("#EXTM3U\n#EXTINF:180,".toList ++
          Char.ofNat 0xA0 :: "Song One\n/music/one.mp3".toList) =
      (true, [Mrl.mk "/music/one.mp3".toList (Char.ofNat 0xA0 :: "Song One".toList)]) ∧
    Playlist.loadM3U true []
        ("#EXTM3U\n#EXTINF:180,".toList ++
          Char.ofNat 0xA0 :: "Song One\n/music/one.mp3".toList) =
      (true, [Mrl.mk "/music/one.mp3".toList (Char.ofNat 0xA0 :: "Song One".toList)]) ∧
    isSpace (Char.ofNat 0xA0) = true ∧
    trimmed (Char.ofNat 0xA0 :: "Song One".toList) = "Song One".toList := by
  decide

/-- C5, amended. M3U decoding of an `#EXTINF` directive: the text made of the
line `#EXTM3U`, a line `#EXTINF:<sign><digits>,<name>` (the sign a `-` or
nothing) and one plain locator line, with or without a line feed at its end,
decodes into exactly one entry. Its locator is the locator line trimmed. Its
display name is `<name>` without the whitespace at its end and without the
characters of the pattern class `\s` (space, tab, CR, VT, FF) at its start;
that is `<name>` trimmed whenever the whitespace at the start of `<name>` is of
that class. The digits do not enter the result. -/
theorem loadM3U_extinf (cutFinalCR : Bool) (sign digits name loc tail : QString)
    (hsign : sign = [] ∨ sign = ['-'])
    (hdigits : digits ≠ [] ∧ ∀ d ∈ digits, d.isDigit = true)
    (hname : '\n' ∉ name)
    (hloc : isPlain loc = true ∧ '\n' ∉ loc)
    (htail : tail = [] ∨ tail = ['\n']) :
    Playlist.loadM3U cutFinalCR []
        (joinLines ["#EXTM3U".toList, "#EXTINF:".toList ++ sign ++ digits ++ ',' :: name, loc]
          ++ tail) =
      (true, [Mrl.mk (trimmed loc) ((name.rdropWhile isSpace).dropWhile reSpace)]) ∧
    ((∀ c ∈ name.takeWhile isSpace, reSpace c = true) →
      (name.rdropWhile isSpace).dropWhile reSpace = trimmed name) := by
  have hsignlf : '\n' ∉ sign := by
    rcases hsign with rfl | rfl <;> decide
  have hdlf : '\n' ∉ digits := fun hm => absurd (hdigits.2 _ hm) (by decide)
  have hlines : ∀ l ∈ ["#EXTM3U".toList,
      "#EXTINF:".toList ++ sign ++ digits ++ ',' :: name, loc], l ≠ [] ∧ '\n' ∉ l := by
    intro l hl
    simp only [List.mem_cons, List.mem_singleton, List.not_mem_nil, or_false] at hl
    rcases hl with rfl | rfl | rfl
    · decide
    · refine ⟨by simp, ?_⟩
      simp only [List.mem_append, List.mem_cons, not_or]
      exact ⟨⟨⟨by decide, hsignlf⟩, hdlf⟩, by decide, hname⟩
    · exact ⟨isPlain_ne_nil hloc.1, hloc.2⟩
  have hraw : rawLines (joinLines ["#EXTM3U".toList,
      "#EXTINF:".toList ++ sign ++ digits ++ ',' :: name, loc] ++ tail) =
      ["#EXTM3U".toList, "#EXTINF:".toList ++ sign ++ digits ++ ',' :: name, loc] := by
    rcases htail with rfl | rfl
    · rw [List.append_nil]
      exact rawLines_joinLines _ hlines
    · have e : joinLines ["#EXTM3U".toList,
          "#EXTINF:".toList ++ sign ++ digits ++ ',' :: name, loc] ++ ['\n'] =
          unlines ["#EXTM3U".toList,
            "#EXTINF:".toList ++ sign ++ digits ++ ',' :: name, loc] := by
        simp [joinLines, unlines]
      rw [e]
      exact rawLines_unlines _ (fun l hl => (hlines l hl).2)
  constructor
  · rw [loadM3U_eq_rawLines, hraw,
      m3uRun_extinf sign digits name loc hsign hdigits.1 hdigits.2 hname hloc.1]
    rfl
  · intro hsp
    rw [trimmed_eq]
    apply dropWhile_eq_of_takeWhile reSpace_isSpace
    intro c hc
    obtain ⟨t, ht⟩ := List.rdropWhile_prefix isSpace name
    apply hsp
    rw [← ht]
    exact mem_takeWhile_append _ _ _ hc

/-- Witness of C5, amended, on the text of the specification. -/
theorem loadM3U_extinf_witness :
    Playlist.loadM3U false [] "#EXTM3U\n#EXTINF:180,Song One\n/music/one.mp3".toList =
      (true, [Mrl.mk "/music/one.mp3".toList "Song One".toList]) :=
  (loadM3U_extinf false [] "180".toList "Song One".toList "/music/one.mp3".toList []
    (Or.inl rfl) (by decide) (by decide) (by decide) (Or.inl rfl)).1

/-! ## Settings round trip: proofs -/

theorem saveSettings_loop_arraySize (pl : Playlist) (name : QString) (set : QSettings)
    (n : Nat) :
    ((List.range n).foldl
      (fun set i =>
        (set.setValue name i "mrl".toList (pl.getD i (Mrl.ofLocation [])).toString).setValue
          name i "name".toList (pl.getD i (Mrl.ofLocation [])).name)
      (set.beginWriteArray name pl.length)).arraySize name = (pl.length : Int) := by
  induction n with
  | zero => simp [QSettings.beginWriteArray]
  | succ n ih =>
    rw [List.range_succ, List.foldl_append]
    simpa [QSettings.setValue] using ih

theorem saveSettings_loop_value (pl : Playlist) (name : QString) (set : QSettings)
    (n i : Nat) (hi : i < n) :
    ((List.range n).foldl
        (fun set i =>
          (set.setValue name i "mrl".toList (pl.getD i (Mrl.ofLocation [])).toString).setValue
            name i "name".toList (pl.getD i (Mrl.ofLocation [])).name)
        (set.beginWriteArray name pl.length)).value name i "mrl".toList =
        (pl.getD i (Mrl.ofLocation [])).toString ∧
      ((List.range n).foldl
        (fun set i =>
          (set.setValue name i "mrl".toList (pl.getD i (Mrl.ofLocation [])).toString).setValue
            name i "name".toList (pl.getD i (Mrl.ofLocation [])).name)
        (set.beginWriteArray name pl.length)).value name i "name".toList =
        (pl.getD i (Mrl.ofLocation [])).name := by
  induction n with
  | zero => exact absurd hi (Nat.not_lt_zero _)
  | succ n ih =>
    have hne : "mrl".toList ≠ "name".toList := by decide
    rw [List.range_succ, List.foldl_append]
    by_cases hin : i = n
    · subst hin
      simp [QSettings.setValue, hne]
    · have hlt : i < n := by omega
      obtain ⟨h1, h2⟩ := ih hlt
      simp only [List.foldl_cons, List.foldl_nil, QSettings.setValue, hin, false_and, and_false,
        if_false]
      exact ⟨h1, h2⟩

theorem loadSettings_loop (pl : Playlist) (set : QSettings) (name : QString)
    (hv : ∀ i, i < pl.length →
      set.value name i "mrl".toList = (pl.getD i (Mrl.ofLocation [])).toString ∧
      set.value name i "name".toList = (pl.getD i (Mrl.ofLocation [])).name)
    (n : Nat) (hn : n ≤ pl.length) :
    (List.range n).foldl
        (fun self i =>
          let mrl := Mrl.mk (set.value name i "mrl".toList) (set.value name i "name".toList)
          if !mrl.isEmpty then self ++ [mrl] else self)
        (Playlist.clear []) =
      (pl.take n).filter (fun m => !m.isEmpty) := by
  induction n with
  | zero => rfl
  | succ n ih =>
    have hlt : n < pl.length := hn
    obtain ⟨h1, h2⟩ := hv n hlt
    have hget : pl.getD n (Mrl.ofLocation []) = pl[n] := List.getD_eq_getElem _ _ hlt
    have hmk : Mrl.mk (pl[n]).toString (pl[n]).name = pl[n] := rfl
    rw [List.range_succ, List.foldl_append, ih (Nat.le_of_lt hlt), List.take_succ,
      List.getElem?_eq_getElem hlt, List.filter_append]
    simp only [List.foldl_cons, List.foldl_nil, h1, h2, hget, hmk, Option.toList]
    cases h : (pl[n]).isEmpty <;> simp [List.filter, h]

/-- C9. Round trip through the settings store: saving a playlist under a
section name and loading that section, into any playlist, gives exactly the
saved entries that are not empty, in their order, each with its locator string
and its display name; an empty entry does not come back. Saving the entry with
locator `x` and name `n` under `pl` and loading `pl` gives that entry. -/
theorem settings_round_trip :
    (∀ (pl self : Playlist) (name : QString) (set : QSettings),
      Playlist.loadSettings self name (Playlist.saveSettings pl name set) =
        pl.filter (fun m => !m.isEmpty)) ∧
    (∀ (self : Playlist) (set : QSettings),
      Playlist.loadSettings self "pl".toList
          (Playlist.saveSettings [Mrl.mk "x".toList "n".toList] "pl".toList set) =
        [Mrl.mk "x".toList "n".toList]) ∧
    (∀ (self : Playlist) (set : QSettings),
      Playlist.loadSettings self "pl".toList
          (Playlist.saveSettings [Mrl.mk [] "n".toList, Mrl.mk "x".toList []] "pl".toList set) =
        [Mrl.mk "x".toList []]) := by
  have main : ∀ (pl self : Playlist) (name : QString) (set : QSettings),
      Playlist.loadSettings self name (Playlist.saveSettings pl name set) =
        pl.filter (fun m => !m.isEmpty) := by
    intro pl self name set
    unfold Playlist.loadSettings Playlist.saveSettings
    simp only [saveSettings_loop_arraySize, Int.toNat_ofNat]
    have := loadSettings_loop pl _ name
      (fun i hi => saveSettings_loop_value pl name set pl.length i hi) pl.length (le_refl _)
    rw [List.take_length] at this
    exact this
  refine ⟨main, ?_, ?_⟩
  · intro self set
    rw [main]
    rfl
  · intro self set
    rw [main]
    rfl

/-! ## Load dispatch: proofs -/

/-- C6, counterexample. A load from a media reference that is not a local file
returns false and leaves the playlist as it was: the entry held before the call
is still there, while the same call on an empty playlist leaves it empty. -/
theorem loadMrl_remote_keeps_entries :
    Playlist.loadMrl (fun m => "file://".toList.isPrefixOf m.loc) (fun m => m.loc.drop 7)
        [Mrl.mk "/music/old.mp3".toList []] (fun _ => none)
        (Mrl.mk "http://host/list.m3u".toList []) [] PlaylistType.Unknown =
      (false, [Mrl.mk "/music/old.mp3".toList []]) ∧
    Playlist.loadMrl (fun m => "file://".toList.isPrefixOf m.loc) (fun m => m.loc.drop 7)
        [] (fun _ => none)
        (Mrl.mk "http://host/list.m3u".toList []) [] PlaylistType.Unknown =
      (false, []) := by
  constructor <;> rfl

/-- C6, amended. Every load from a file object, from a file path, from a media
reference that is a local file or from a settings section, and every `loadAll`,
rebuilds the playlist from empty: the result of the call, the playlist after it
included, is what the same call gives on an empty playlist, whether the call
returns true or false. -/
theorem load_rebuilds_from_empty :
    (∀ (self : Playlist) (file : QFile) (enc : QString) (type : PlaylistType),
      Playlist.loadFile self file enc type = Playlist.loadFile [] file enc type) ∧
    (∀ (self : Playlist) (fs : FileSystem) (filePath enc : QString) (type : PlaylistType),
      Playlist.loadPath self fs filePath enc type = Playlist.loadPath [] fs filePath enc type) ∧
    (∀ (isLocalFile : Mrl → Bool) (toLocalFile : Mrl → QString) (self : Playlist)
      (fs : FileSystem) (mrl : Mrl) (enc : QString) (type : PlaylistType),
      isLocalFile mrl = true →
      Playlist.loadMrl isLocalFile toLocalFile self fs mrl enc type =
        Playlist.loadMrl isLocalFile toLocalFile [] fs mrl enc type) ∧
    (∀ (self : Playlist) (name : QString) (set : QSettings),
      Playlist.loadSettings self name set = Playlist.loadSettings [] name set) ∧
    (∀ (mediaNameFilter : List QString) (self : Playlist) (dir : QDir),
      Playlist.loadAll mediaNameFilter self dir = Playlist.loadAll mediaNameFilter [] dir) := by
  refine ⟨fun _ _ _ _ => rfl, fun _ _ _ _ _ => rfl, ?_, fun _ _ _ => rfl, fun _ _ _ => rfl⟩
  intro isLocalFile toLocalFile self fs mrl enc type h
  unfold Playlist.loadMrl
  rw [if_pos h, if_pos h]
  rfl

/-- Witness of C6, amended: a load of a local M3U file into a playlist that
holds an entry leaves only the entry of the file. -/
theorem load_rebuilds_from_empty_witness :
    Playlist.loadMrl (fun m => "file://".toList.isPrefixOf m.loc) (fun m => m.loc.drop 7)
        [Mrl.mk "/music/old.mp3".toList []]
        (fun path => if path = "/l.m3u".toList
          then some (FileData.mk (fun _ => "x\n/a.mp3\n".toList) false) else none)
        (Mrl.mk "file:///l.m3u".toList []) [] PlaylistType.Unknown =
      (true, [Mrl.mk "/a.mp3".toList []]) :=
  (load_rebuilds_from_empty.2.2.1 _ _ _ _ _ _ _ (by decide)).trans (by decide)

/-- C7. A load from a media reference returns true exactly when the reference
is a local file, that file can be opened for reading, and the format (the given
type, or `getType` of the file name when the given type is Unknown) is PLS, M3U
or M3U8. For a reference that is not a local file it returns false for every
encoding and type, and a load of a file that is open or can be opened, with a
known format, returns true whatever its text is. -/
theorem loadMrl_true_iff :
    (∀ (isLocalFile : Mrl → Bool) (toLocalFile : Mrl → QString) (self : Playlist)
      (fs : FileSystem) (mrl : Mrl) (enc : QString) (type : PlaylistType),
      (Playlist.loadMrl isLocalFile toLocalFile self fs mrl enc type).1 = true ↔
        (isLocalFile mrl = true ∧ (fs (toLocalFile mrl)).isSome = true ∧
          (if type = PlaylistType.Unknown then Playlist.getType (toLocalFile mrl) else type) ≠
            PlaylistType.Unknown)) ∧
    (∀ (isLocalFile : Mrl → Bool) (toLocalFile : Mrl → QString) (self : Playlist)
      (fs : FileSystem) (mrl : Mrl), isLocalFile mrl = false →
      ∀ (enc : QString) (type : PlaylistType),
        (Playlist.loadMrl isLocalFile toLocalFile self fs mrl enc type).1 = false) ∧
    (∀ (self : Playlist) (file : QFile) (enc : QString) (type : PlaylistType),
      (file.isOpen = true ∨ file.canOpen = true) →
      (if type = PlaylistType.Unknown then Playlist.getType file.fileName else type) ≠
        PlaylistType.Unknown →
      (Playlist.loadFile self file enc type).1 = true) := by
  have hfile : ∀ (self : Playlist) (file : QFile) (enc : QString) (type : PlaylistType),
      (Playlist.loadFile self file enc type).1 = true ↔
        ((file.isOpen = true ∨ file.canOpen = true) ∧
          (if type = PlaylistType.Unknown then Playlist.getType file.fileName else type) ≠
            PlaylistType.Unknown) := by
    intro self file enc type
    unfold Playlist.loadFile
    simp only
    cases ho : file.isOpen <;> cases hc : file.canOpen <;>
      cases ht : (if type = PlaylistType.Unknown then Playlist.getType file.fileName
        else type) <;>
      simp [Playlist.loadPLS, Playlist.loadM3U]
  refine ⟨?_, ?_, ?_⟩
  · intro isLocalFile toLocalFile self fs mrl enc type
    unfold Playlist.loadMrl
    cases hl : isLocalFile mrl
    · simp
    · simp only [if_true, Playlist.loadPath, hfile, QFile.ofPath, true_and]
      simp
  · intro isLocalFile toLocalFile self fs mrl hl enc type
    unfold Playlist.loadMrl
    simp [hl]
  · intro self file enc type ho ht
    exact (hfile self file enc type).2 ⟨ho, ht⟩

/-- Witness of C7: a remote reference fails whatever the type, and a readable
file with a known suffix loads whatever its text is. -/
theorem loadMrl_true_iff_witness :
    (Playlist.loadMrl (fun m => "file://".toList.isPrefixOf m.loc) (fun m => m.loc.drop 7)
        [] (fun _ => some (FileData.mk (fun _ => "File1=a\n".toList) false))
        (Mrl.mk "http://host/list.pls".toList []) "UTF-8".toList PlaylistType.PLS).1 = false ∧
    (Playlist.loadFile []
        (QFile.mk "/tmp/x.PLS".toList false true (fun _ => "no header, no entry".toList) false)
        [] PlaylistType.Unknown).1 = true :=
  ⟨loadMrl_true_iff.2.1 _ _ _ _ _ (by decide) _ _,
    loadMrl_true_iff.2.2 _ _ _ _ (Or.inr rfl) (by decide)⟩

end Bomi
